import Mathlib

/-!
# Verification of the `mdpgen` abstraction engine (`src/mdpgen/mdp.py`)

A shallow embedding of the MDP / BlockMDP / AbstractMDP construction code in
`src/mdpgen/mdp.py`, over exact rationals.  Numpy float arrays are modelled as
`Matrix (Fin m) (Fin n) ℚ`; `np.allclose` is modelled with its exact default
tolerances (`atol = 1e-8`, `rtol = 1e-5`) as a decidable comparison on ℚ.
Random draws (`np.random.rand`, `np.random.uniform`, mask draws) are passed in
as explicit parameters, so every "random" constructor becomes a deterministic
function of the drawn values.
-/

namespace MdpGen

/-- Absolute tolerance of `np.allclose` (default `1e-08`). -/
def atol : ℚ := 1 / 100000000

/-- Relative tolerance of `np.allclose` (default `1e-05`). -/
def rtol : ℚ := 1 / 100000

/-- `np.allclose` on vectors: `|a i - b i| <= atol + rtol * |b i|` for all `i`. -/
def allcloseV {n : ℕ} (a b : Fin n → ℚ) : Bool :=
  (List.finRange n).all (fun i => decide (|a i - b i| ≤ atol + rtol * |b i|))

/-- `np.allclose` on matrices. -/
def allcloseM {m n : ℕ} (A B : Matrix (Fin m) (Fin n) ℚ) : Bool :=
  (List.finRange m).all (fun i => allcloseV (A i) (B i))

/-- Sum of row `i` of a matrix (`M.sum(axis=1)` entry). -/
def rowSum {m n : ℕ} (M : Matrix (Fin m) (Fin n) ℚ) (i : Fin m) : ℚ :=
  ∑ j, M i j

/-- `normalize(M)` for a 2-D array: each row is divided by its sum;
`np.divide(..., out=np.zeros_like(M), where=(denoms!=0))` leaves a row whose
sum is zero as all zeros. -/
def normalize {m n : ℕ} (M : Matrix (Fin m) (Fin n) ℚ) : Matrix (Fin m) (Fin n) ℚ :=
  fun i j => if rowSum M i = 0 then 0 else M i j / rowSum M i

/-- `normalize` on a 1-D array: divide by the total, guarded by the total
being nonzero.  (This is the `M.ndim == 1` branch of `normalize`.) -/
def normalizeRow {n : ℕ} (v : Fin n → ℚ) : Fin n → ℚ :=
  fun j => if (∑ i, v i) = 0 then 0 else v j / (∑ i, v i)

/-- `is_stochastic(M) = np.allclose(M, normalize(M))`. -/
def is_stochastic {m n : ℕ} (M : Matrix (Fin m) (Fin n) ℚ) : Bool :=
  allcloseM M (normalize M)

/-- `np.divide(A, D, out=np.zeros_like(A), where=(D!=0))`: entrywise guarded
division, yielding `0` wherever the denominator is `0`. -/
def npDivide {m n : ℕ} (A D : Matrix (Fin m) (Fin n) ℚ) : Matrix (Fin m) (Fin n) ℚ :=
  fun i j => if D i j = 0 then 0 else A i j / D i j

/-- Elementwise (Hadamard) product `A * B` of two numpy arrays. -/
def elemMul {m n : ℕ} (A B : Matrix (Fin m) (Fin n) ℚ) : Matrix (Fin m) (Fin n) ℚ :=
  fun i j => A i j * B i j

/-- `np.min(np.stack(R))` over a length-`nA` stack of `nS × nS` matrices.
`np.min` of an empty stack raises; the empty case is modelled by the junk
value `0` and never reached by the claims (all constructed MDPs have at
least one action and one state). -/
def stackMin {nA nS : ℕ} (R : Fin nA → Matrix (Fin nS) (Fin nS) ℚ) : ℚ :=
  match ((List.finRange nA).flatMap fun a =>
    (List.finRange nS).flatMap fun s =>
      (List.finRange nS).map fun t => R a s t) with
  | [] => 0
  | x :: xs => xs.foldl min x

/-- `np.max(np.stack(R))`, analogous to `stackMin`. -/
def stackMax {nA nS : ℕ} (R : Fin nA → Matrix (Fin nS) (Fin nS) ℚ) : ℚ :=
  match ((List.finRange nA).flatMap fun a =>
    (List.finRange nS).flatMap fun s =>
      (List.finRange nS).map fun t => R a s t) with
  | [] => 0
  | x :: xs => xs.foldl max x

/-- `random_observation_fn(n_states, n_obs_per_block)`, with the random draws
of the per-state splits (`np.random.rand`, one row of length `k` per state)
passed in as `splitDraw`.  The source builds
`obs_fn = kron(eye(nS), ones(1,k)) * kron(ones(1,nS), splits)`, whose entry
at `(s, x)` is `[x // k = s] * splits[s][x % k]`; the flat observation index
`x : Fin (nS * k)` decomposes as `(x.divNat, x.modNat) = (x / k, x % k)`.

Two parameter corners of the source never produce an observation function:
for `n_states = 0` the `np.stack` of an empty list raises `ValueError`, and
for `n_obs_per_block = 1` with `n_states >= 2` the `.squeeze()` on line 42
collapses the split axis as well, leaving a `(nS,)` array whose tiling makes
`obs_fn_mask * tiled_split_probs` a shape-incompatible `(nS,nS) * (1,nS*nS)`
broadcast (`ValueError`).  This Lean function is total; theorems about
synthesized block MDPs that need to speak only about observation functions
the program actually builds carry the constructibility hypotheses
`1 ≤ nS` and `nS = 1 ∨ k ≠ 1`. -/
def random_observation_fn (nS k : ℕ) (splitDraw : Fin nS → Fin k → ℚ) :
    Matrix (Fin nS) (Fin (nS * k)) ℚ :=
  fun s x => (if x.divNat = s then (1 : ℚ) else 0) * normalizeRow (splitDraw s) x.modNat

/-- The support mask `obs_mask = (obs_fn > 0).astype(int)` of an observation
function. -/
def obsMask {nS nObs : ℕ} (obs_fn : Matrix (Fin nS) (Fin nObs) ℚ) :
    Matrix (Fin nS) (Fin nObs) ℚ :=
  fun s x => if 0 < obs_fn s x then 1 else 0

/-- Python error values observable from the embedded code. -/
inductive PyErr where
  /-- a failed `assert` -/
  | assertionError : PyErr
  /-- e.g. `int(c)` on a non-decimal character, or a bad `gmpy.digits` base -/
  | valueError : PyErr
  /-- a call with the wrong number of positional arguments -/
  | typeError : PyErr
  /-- indexing an empty array -/
  | indexError : PyErr
  /-- reference to an undefined global name -/
  | nameError : PyErr
deriving DecidableEq

instance exceptDecEq {ε α : Type} [DecidableEq ε] [DecidableEq α] :
    DecidableEq (Except ε α) := fun a b =>
  match a, b with
  | .error e, .error f =>
    decidable_of_iff (e = f)
      ⟨fun h => congrArg Except.error h, fun h => by injection h⟩
  | .error _, .ok _ => isFalse (fun h => Except.noConfusion h)
  | .ok _, .error _ => isFalse (fun h => Except.noConfusion h)
  | .ok u, .ok v =>
    decidable_of_iff (u = v)
      ⟨fun h => congrArg Except.ok h, fun h => by injection h⟩

/-- The class `MDP`: per-action transition and reward matrices, discount, and
the reward bounds `R_min`/`R_max` stored by `__init__`.  The attributes
`n_states` and `n_actions` are the type indices `nS` and `nA`
(`n_states = len(T[0])`, `n_actions = len(T)`). -/
structure MDP (nS nA : ℕ) where
  T : Fin nA → Matrix (Fin nS) (Fin nS) ℚ
  R : Fin nA → Matrix (Fin nS) (Fin nS) ℚ
  gamma : ℚ
  R_min : ℚ
  R_max : ℚ

/-- `MDP.__init__(T, R, gamma)`: deep-copies `T`/`R` (values in the pure
embedding) and records `R_min = np.min(np.stack(R))`, `R_max = np.max(...)`. -/
def MDP.make {nS nA : ℕ} (T R : Fin nA → Matrix (Fin nS) (Fin nS) ℚ) (gamma : ℚ) :
    MDP nS nA :=
  ⟨T, R, gamma, stackMin R, stackMax R⟩

/-- Base-`b` digits of `n`, least significant first, by fuel recursion
(the fuel `n` itself always suffices for `b ≥ 2`). -/
def digitsRevAux (b : ℕ) : ℕ → ℕ → List ℕ
  | 0, _ => []
  | fuel + 1, n => if n = 0 then [] else n % b :: digitsRevAux b fuel (n / b)

/-- `gmpy.digits(n, b)` for `n ≥ 0`: the base-`b` expansion of `n`, most
significant digit first, with `digits(0, b) = "0"`.  Each entry is the
numeric value of one character of the returned string. -/
def gmpyDigits (b n : ℕ) : List ℕ :=
  if n = 0 then [0] else (digitsRevAux b n n).reverse

/-- `gmpy.digits(n, b).zfill(nS)`: left-pad the digit string with zeros to
length `nS` (a longer string is left unchanged). -/
def zfilled (nS b n : ℕ) : List ℕ :=
  List.replicate (nS - (gmpyDigits b n).length) 0 ++ gmpyDigits b n

/-- `MDP.get_policy(i)`:
`assert i < n_actions ** n_states`, then
`np.asarray(list(gmpy.digits(i, n_actions).zfill(n_states)), dtype=int)`.

Failure modes, in source order:
* `i >= n_actions ** n_states`: the `assert` fires (`AssertionError`);
* `i < 0`: the assert passes (`i < n_actions ** n_states` holds), and
  `gmpy.digits` returns a string starting with the sign character, whose
  conversion by `int` raises `ValueError`;
* a base outside `2..36`: `gmpy.digits` (gmpy 1.x) rejects it
  (`ValueError`);
* a digit `≥ 10`: `gmpy.digits` renders it as a letter (`a`, `b`, ...),
  whose conversion by `int` raises `ValueError`. -/
def MDP.get_policy {nS nA : ℕ} (_m : MDP nS nA) (i : ℤ) : Except PyErr (List ℕ) :=
  if ¬ i < (nA : ℤ) ^ nS then .error .assertionError
  else if i < 0 then .error .valueError
  else if nA < 2 then .error .valueError
  else if 36 < nA then .error .valueError
  else
    let padded := zfilled nS nA i.toNat
    if padded.all (· < 10) then .ok padded else .error .valueError

/-- `MDP.all_policies()`: `[get_policy(i) for i in range(n_actions ** n_states)]`;
any error raised by `get_policy` propagates. -/
def MDP.all_policies {nS nA : ℕ} (m : MDP nS nA) : Except PyErr (List (List ℕ)) :=
  (List.range (nA ^ nS)).mapM (fun i : ℕ => m.get_policy (i : ℤ))

/-- `MDP.T_pi(pi) = T[pi, arange(n_states), :]`: row `s` is row `s` of
`T[pi[s]]`. -/
def MDP.T_pi {nS nA : ℕ} (m : MDP nS nA) (pi : Fin nS → Fin nA) :
    Matrix (Fin nS) (Fin nS) ℚ :=
  fun s t => m.T (pi s) s t

/-- `MDP.get_N(pi) = T_pi(pi)`. -/
def MDP.get_N {nS nA : ℕ} (m : MDP nS nA) (pi : Fin nS → Fin nA) :
    Matrix (Fin nS) (Fin nS) ℚ :=
  m.T_pi pi

/-- `MDP.get_I(pi)`: `np.divide(T * one_hot(pi).T[:,:,None], N[None,:,:],
out=zeros, where=(N != 0))`, i.e.
`I[a,s,t] = T[a,s,t] * [pi[s] = a] / N[s,t]`, and `0` where `N[s,t] = 0`. -/
def MDP.get_I {nS nA : ℕ} (m : MDP nS nA) (pi : Fin nS → Fin nA) :
    Fin nA → Matrix (Fin nS) (Fin nS) ℚ :=
  fun a => npDivide (fun s t => m.T a s t * (if pi s = a then 1 else 0)) (m.get_N pi)

/-- The action-averaged transition matrix `np.mean(T, axis=0)` used by
`image` under the default uniform-random policy. -/
def MDP.meanT {nS nA : ℕ} (m : MDP nS nA) : Matrix (Fin nS) (Fin nS) ℚ :=
  fun s t => (∑ a, m.T a s t) / (nA : ℚ)

/-- `MDP.image(pr_x, pi)`: one step of distribution propagation
`pr_x @ T_eff`. -/
def MDP.image {nS nA : ℕ} (m : MDP nS nA) (pr : Fin nS → ℚ)
    (pi : Option (Fin nS → Fin nA)) : Fin nS → ℚ :=
  match pi with
  | none => Matrix.vecMul pr m.meanT
  | some p => Matrix.vecMul pr (m.T_pi p)

/-- The iteration of `stationary_distribution`: repeatedly apply `step`,
stopping as soon as the new distribution is `np.allclose` to the previous
one, for at most the given number of steps. -/
def statLoop {n : ℕ} (step : (Fin n → ℚ) → Fin n → ℚ) : ℕ → (Fin n → ℚ) → Fin n → ℚ
  | 0, d => d
  | fuel + 1, d =>
    let d' := step d
    if allcloseV d' d then d' else statLoop step fuel d'

/-- `MDP.stationary_distribution(pi, p0, max_steps=200)`: fixed-point
iteration of `image` from `p0` (default uniform `np.ones(n)/n`). -/
def MDP.stationary_distribution {nS nA : ℕ} (m : MDP nS nA)
    (pi : Option (Fin nS → Fin nA)) (p0 : Option (Fin nS → ℚ)) : Fin nS → ℚ :=
  let d0 := p0.getD (fun _ => 1 / (nS : ℚ))
  statLoop (fun d => m.image d pi) 200 d0

/-- `MDP.generate(n_states, n_actions, sparsity, gamma, Rmin, Rmax)`, with the
random draws passed in:
`Tdraw a` is the `np.random.rand` array behind `random_transition_matrix`,
`Rdraw a` is the already-rounded output of `random_reward_matrix`, and
`maskDraw a` is the output of `random_sparse_mask`.
For each action, `T_a = normalize(rand)`; if `sparsity > 0`, a mask is
applied to both matrices and `T_a` is renormalized. -/
def MDP.generate (nS nA : ℕ) (sparsity gamma : ℚ)
    (Tdraw Rdraw maskDraw : Fin nA → Matrix (Fin nS) (Fin nS) ℚ) : MDP nS nA :=
  MDP.make
    (fun a => if 0 < sparsity
      then normalize (elemMul (normalize (Tdraw a)) (maskDraw a))
      else normalize (Tdraw a))
    (fun a => if 0 < sparsity
      then elemMul (Rdraw a) (maskDraw a)
      else Rdraw a)
    gamma

/-- The class `BlockMDP`.  `nObs` is the actual row/column dimension of the
derived `T`/`R` matrices, while `n_states` is the Python attribute
`self.n_states = base_mdp.n_states * n_obs_per_block`, assigned from the
`n_obs_per_block` parameter *before* the `obs_fn is None` branch runs
(so the two need not agree when an explicit `obs_fn` is supplied).
`R_min`/`R_max` come from `super().__init__` on the base matrices. -/
structure BlockMDP (nS nA nObs : ℕ) where
  base_mdp : MDP nS nA
  n_states : ℕ
  T : Fin nA → Matrix (Fin nObs) (Fin nObs) ℚ
  R : Fin nA → Matrix (Fin nObs) (Fin nObs) ℚ
  gamma : ℚ
  R_min : ℚ
  R_max : ℚ
  obs_fn : Matrix (Fin nS) (Fin nObs) ℚ

/-- The body of `BlockMDP.__init__` shared by both branches of
`obs_fn is None`: given the observation function finally in scope, build
`T_new[a] = obs_mask.T @ T[a] @ obs_fn` and
`R_new[a] = obs_mask.T @ R[a] @ obs_mask`. -/
def blockBody {nS nA nObs : ℕ} (base : MDP nS nA) (nStatesAttr : ℕ)
    (obs_fn : Matrix (Fin nS) (Fin nObs) ℚ) : BlockMDP nS nA nObs :=
  ⟨base, nStatesAttr,
    fun a => (obsMask obs_fn).transpose * base.T a * obs_fn,
    fun a => (obsMask obs_fn).transpose * base.R a * (obsMask obs_fn),
    base.gamma, stackMin base.R, stackMax base.R, obs_fn⟩

/-- `BlockMDP(base_mdp, n_obs_per_block=k)` with `obs_fn=None`: the
observation function is synthesized by `random_observation_fn` (with draws
`splitDraw`), and `self.n_states = base.n_states * k` matches the dimension
`nS * k` of the derived matrices. -/
def blockSynth {nS nA : ℕ} (base : MDP nS nA) (k : ℕ)
    (splitDraw : Fin nS → Fin k → ℚ) : BlockMDP nS nA (nS * k) :=
  blockBody base (nS * k) (random_observation_fn nS k splitDraw)

/-- `BlockMDP(base_mdp, n_obs_per_block=k, obs_fn=f)` with an explicit
`obs_fn` of shape `nS × nObs`: `self.n_states = base.n_states * k` is set
from the *parameter* `k` (default `2`) on line 148, before the reassignment
`n_obs_per_block = obs_fn.shape[1]` on line 153 (which is itself dead: the
reassigned value is never used). -/
def blockExplicit {nS nA nObs : ℕ} (base : MDP nS nA) (k : ℕ)
    (obs_fn : Matrix (Fin nS) (Fin nObs) ℚ) : BlockMDP nS nA nObs :=
  blockBody base (nS * k) obs_fn

/-- The `MDP`-typed view of a `BlockMDP` (it `is-a` MDP by inheritance): its
`T`, `R`, `gamma` and reward bounds.  The Python `n_states` attribute agrees
with the matrix dimension `nObs` exactly when the block MDP was built with a
synthesized (or dimension-consistent) observation function. -/
def BlockMDP.toMDP {nS nA nObs : ℕ} (b : BlockMDP nS nA nObs) : MDP nObs nA :=
  ⟨b.T, b.R, b.gamma, b.R_min, b.R_max⟩

/-- `AbstractMDP.B(p) = normalize(p * phi.transpose())`: weight each concrete
state by `p` inside its aggregation class, then renormalize each class row. -/
def beliefOf {n nZ : ℕ} (phi : Matrix (Fin n) (Fin nZ) ℚ) (p : Fin n → ℚ) :
    Matrix (Fin nZ) (Fin n) ℚ :=
  normalize (fun z x => p x * phi x z)

/-- `AbstractMDP.compute_Tz(belief, Tx) = belief @ Tx @ phi`. -/
def compute_Tz {n nZ : ℕ} (phi : Matrix (Fin n) (Fin nZ) ℚ)
    (belief : Matrix (Fin nZ) (Fin n) ℚ) (Tx : Matrix (Fin n) (Fin n) ℚ) :
    Matrix (Fin nZ) (Fin nZ) ℚ :=
  belief * Tx * phi

/-- `AbstractMDP.compute_Rz(belief, Rx, Tx, Tz)
= np.divide(belief @ (Rx*Tx) @ phi, Tz, out=zeros, where=(Tz!=0))`. -/
def compute_Rz {n nZ : ℕ} (phi : Matrix (Fin n) (Fin nZ) ℚ)
    (belief : Matrix (Fin nZ) (Fin n) ℚ) (Rx Tx : Matrix (Fin n) (Fin n) ℚ)
    (Tz : Matrix (Fin nZ) (Fin nZ) ℚ) : Matrix (Fin nZ) (Fin nZ) ℚ :=
  npDivide (belief * elemMul Rx Tx * phi) Tz

/-- The class `AbstractMDP`.  `super().__init__` stores the *base* matrices
first, so `R_min`/`R_max` are `np.min`/`np.max` of the base rewards; the
constructor then rebinds `self.T`/`self.R` to the abstract matrices and
stores their bounds under the distinct attribute names `Rmin`/`Rmax`
(lines 185-186, without underscore). -/
structure AbstractMDP (n nA nZ : ℕ) where
  base_mdp : MDP n nA
  phi : Matrix (Fin n) (Fin nZ) ℚ
  n_states : ℕ
  n_obs : ℕ
  belief : Matrix (Fin nZ) (Fin n) ℚ
  T : Fin nA → Matrix (Fin nZ) (Fin nZ) ℚ
  R : Fin nA → Matrix (Fin nZ) (Fin nZ) ℚ
  gamma : ℚ
  R_min : ℚ
  R_max : ℚ
  Rmin : ℚ
  Rmax : ℚ

/-- `AbstractMDP.__init__(base_mdp, phi, pi=None, p0=None)`. -/
def AbstractMDP.make {n nA nZ : ℕ} (base : MDP n nA)
    (phi : Matrix (Fin n) (Fin nZ) ℚ) (pi : Option (Fin n → Fin nA))
    (p0 : Option (Fin n → ℚ)) : AbstractMDP n nA nZ :=
  let state_distr := base.stationary_distribution pi p0
  let belief := beliefOf phi state_distr
  let T := fun a => compute_Tz phi belief (base.T a)
  let R := fun a => compute_Rz phi belief (base.R a) (base.T a) (T a)
  ⟨base, phi, nZ, n, belief, T, R, base.gamma,
    stackMin base.R, stackMax base.R, stackMin R, stackMax R⟩

/-- The numeric `agg_states` vector of `is_abstract_policy`:
`(phi.sum(axis=0) > 1) @ phi.transpose()`, whose entry at `x` is
`sum_z [colsum(z) > 1] * phi[x, z]`; `astype(bool)` then tests it against
zero. -/
def aggVec {n nZ : ℕ} (phi : Matrix (Fin n) (Fin nZ) ℚ) (x : Fin n) : ℚ :=
  ∑ z, (if 1 < ∑ y, phi y z then (1 : ℚ) else 0) * phi x z

/-- `AbstractMDP.is_abstract_policy(pi)`:
`np.all(pi[agg_states] == pi[agg_states][0])`.  The boolean mask gather
`pi[agg_states]` keeps state order; indexing `[0]` of an *empty* gather
raises `IndexError`, modelled by `none`. -/
def AbstractMDP.is_abstract_policy {n nA nZ : ℕ} (m : AbstractMDP n nA nZ)
    (pi : Fin n → ℕ) : Option Bool :=
  match (List.finRange n).filter (fun x => decide (aggVec m.phi x ≠ 0)) with
  | [] => none
  | x0 :: xs => some ((x0 :: xs).all (fun x => pi x == pi x0))

/-- Python positional-argument check: calling a bound method that declares
`arity` parameters (beyond `self`) with `nargs` positional arguments raises
`TypeError` unless they agree. -/
def pyCallCheck (arity nargs : ℕ) : Except PyErr Unit :=
  if nargs = arity then .ok () else .error .typeError

/-- Number of parameters (beyond `self`) of
`AbstractMDP.piecewise_constant_policies` as defined on line 202. -/
def piecewiseConstantPoliciesArity : ℕ := 0

/-- Number of parameters (beyond `self`) of `AbstractMDP.get_abstract_policy`
as defined on line 205. -/
def getAbstractPolicyArity : ℕ := 1

/-- `AbstractMDP.is_markov()`.  Its first statement iterates over
`self.piecewise_constant_policies(m_g, phi)` — two positional arguments to a
method declaring none — which raises `TypeError` before any other work.  The
rest of the body (the call `self.get_abstract_policy(pi_g, phi)` with an
extra argument, and the references `markov.matching_I` /
`markov.matching_ratios` to an undefined global module) is unreachable and
would itself raise. -/
def AbstractMDP.is_markov {n nA nZ : ℕ} (_m : AbstractMDP n nA nZ) :
    Except PyErr Bool := do
  _ ← pyCallCheck piecewiseConstantPoliciesArity 2
  _ ← pyCallCheck getAbstractPolicyArity 2
  .error .nameError

/-- The `phi` used by `test()` as the "perfect abstraction" of a block MDP:
`(obs_fn.transpose() > 0).astype(int)`. -/
def perfectPhi {nS nA nObs : ℕ} (b : BlockMDP nS nA nObs) :
    Matrix (Fin nObs) (Fin nS) ℚ :=
  fun x s => if 0 < b.obs_fn s x then 1 else 0

/-- Modelled from the spec wording of claim C2 only (not source code): a
deterministic base policy is piecewise constant *per class* when, inside
every aggregation class with more than one member, all members receive the
same action.  This is the comparison point for the source implementation of
`is_abstract_policy`, which instead requires one action shared across all
multi-member classes. -/
def perClassAbstractPolicy {n nZ : ℕ} (phi : Matrix (Fin n) (Fin nZ) ℚ)
    (pi : Fin n → ℕ) : Prop :=
  ∀ z : Fin nZ, (1 < ∑ y, phi y z) →
    ∀ x y : Fin n, phi x z = 1 → phi y z = 1 → pi x = pi y

instance {n nZ : ℕ} (phi : Matrix (Fin n) (Fin nZ) ℚ) (pi : Fin n → ℕ) :
    Decidable (perClassAbstractPolicy phi pi) := by
  unfold perClassAbstractPolicy; infer_instance

/-!
## A heap model for the ownership claims

The deep-copy / no-aliasing behaviour of the three constructors concerns
Python object identity, so it is stated over an explicit store of array
cells.  Cells hold opaque values of a type `α`; addresses are indices into
the store; `salloc` models the allocation of a fresh numpy array (every
numpy operation used by `mdp.py` returns a fresh array and `copy.deepcopy`
allocates fresh cells), and nothing in the constructors ever writes to an
existing cell.
-/

/-- A store of array cells. -/
def Store (α : Type) : Type := List α

/-- Allocate a fresh cell holding `v`; returns the new store and the address
of the cell. -/
def salloc {α : Type} (s : Store α) (v : α) : Store α × ℕ :=
  (List.append s [v], List.length s)

/-- Read the cell at address `a`. -/
def sread {α : Type} (s : Store α) (a : ℕ) : Option α :=
  List.get? s a

/-- The size of a store. -/
def ssize {α : Type} (s : Store α) : ℕ := List.length s

/-- An `MDP` object at the store level: the addresses of its `T` and `R`
arrays (the scalar attributes are immutable and elided). -/
structure MDPRef where
  Taddr : ℕ
  Raddr : ℕ

/-- A `BlockMDP` (or `AbstractMDP`) object at the store level: the
addresses of its own `T`/`R` arrays plus the addresses inside its private
`base_mdp` copy. -/
structure DerivedRef where
  self : MDPRef
  base : MDPRef

/-- `MDP.__init__(T, R, gamma)` at the store level: the caller passes the
addresses of its `T` and `R` arrays; `copy.deepcopy` reads their values and
allocates fresh cells for the new object. -/
def mdpInitSt {α : Type} [Inhabited α] (s : Store α) (tA rA : ℕ) :
    Store α × MDPRef :=
  let a1 := salloc s ((sread s tA).getD default)
  let a2 := salloc a1.1 ((sread a1.1 rA).getD default)
  (a2.1, ⟨a1.2, a2.2⟩)

/-- The store after `super().__init__(base.T, base.R, gamma)` inside
`BlockMDP.__init__` / `AbstractMDP.__init__`: the base arrays have been
deep-copied. -/
def dStage1 {α : Type} [Inhabited α] (s : Store α) (base : MDPRef) : Store α :=
  (mdpInitSt s base.Taddr base.Raddr).1

/-- The store after `self.base_mdp = copy.deepcopy(base_mdp)` copied the
base `T` array. -/
def dStage2 {α : Type} [Inhabited α] (s : Store α) (base : MDPRef) : Store α :=
  (salloc (dStage1 s base) ((sread (dStage1 s base) base.Taddr).getD default)).1

/-- The store after the deep copy of the base object also copied its `R`
array. -/
def dStage3 {α : Type} [Inhabited α] (s : Store α) (base : MDPRef) : Store α :=
  (salloc (dStage2 s base) ((sread (dStage2 s base) base.Raddr).getD default)).1

/-- The base `T` value as read (not written) by the derivation loop. -/
def dTv {α : Type} [Inhabited α] (s : Store α) (base : MDPRef) : α :=
  (sread (dStage3 s base) base.Taddr).getD default

/-- The base `R` value as read by the derivation loop. -/
def dRv {α : Type} [Inhabited α] (s : Store α) (base : MDPRef) : α :=
  (sread (dStage3 s base) base.Raddr).getD default

/-- The store after the loop allocated the freshly computed `T_new`. -/
def dStage4 {α : Type} [Inhabited α] (s : Store α) (base : MDPRef)
    (fT : α → α → α) : Store α :=
  (salloc (dStage3 s base) (fT (dTv s base) (dRv s base))).1

/-- The store after the loop allocated the freshly computed `R_new`. -/
def dStage5 {α : Type} [Inhabited α] (s : Store α) (base : MDPRef)
    (fT fR : α → α → α) : Store α :=
  (salloc (dStage4 s base fT) (fR (dTv s base) (dRv s base))).1

/-- `BlockMDP.__init__(base_mdp, ...)` at the store level, in source order:
`super().__init__(base.T, base.R, gamma)` deep-copies the base arrays
(stage 1); `self.base_mdp = copy.deepcopy(base_mdp)` allocates a private
copy of the base object (stages 2 and 3); the loop then reads the base
arrays and allocates the freshly computed `T_new`/`R_new` (stages 4 and 5,
with the computations abstracted as arbitrary functions `fT`, `fR` of the
values read).  Each address is the store size at its allocation.  The same
shape models `AbstractMDP.__init__`, whose body likewise only reads the
base object and allocates new arrays (`self.phi = phi` additionally
aliases the caller-supplied `phi`, which the ownership claim does not
cover). -/
def derivedInitSt {α : Type} [Inhabited α] (s : Store α) (base : MDPRef)
    (fT fR : α → α → α) : Store α × DerivedRef :=
  (dStage5 s base fT fR,
   ⟨⟨ssize (dStage3 s base), ssize (dStage4 s base fT)⟩,
    ⟨ssize (dStage1 s base), ssize (dStage2 s base)⟩⟩)

/-!
## Concrete instances used to evaluate the claims
-/

/-- A 2-state, 1-action base MDP whose single action always returns to state
0; state 1 is unreachable, so the stationary distribution puts no mass on
its block. -/
def c1M : MDP 2 1 := MDP.make (fun _ => !![1, 0; 1, 0]) (fun _ => !![0, 5; 0, 0]) (9/10)

/-- Strictly positive split draws for block factor 2 (`obs_fn` splits each
state evenly over its two observations, as `np.random.rand` draws would
almost surely yield up to the exact weights). -/
def c1W : Fin 2 → Fin 2 → ℚ := fun _ _ => 1

/-- The abstract MDP built from `BlockMDP(c1M, n_obs_per_block=2)` with the
perfect abstraction, as in `test()`.  The block MDP is constructible in the
source (`n_states = 2`, `n_obs_per_block = 2`), and the two observations of
the unreachable base state 1 receive no stationary mass. -/
def c1Abs : AbstractMDP (2 * 2) 1 2 :=
  AbstractMDP.make (blockSynth c1M 2 c1W).toMDP
    (perfectPhi (blockSynth c1M 2 c1W)) none none

/-- A 1-state, 1-action base MDP with a strictly positive transition
matrix. -/
def w1M : MDP 1 1 := MDP.make (fun _ => !![1]) (fun _ => !![3]) (9/10)

/-- Split draws for block factor 2: both observations of the single state
are drawn with equal weight. -/
def w1W : Fin 1 → Fin 2 → ℚ := fun _ _ => 1

/-- A 1-state, 1-action base MDP used with an explicit observation
function. -/
def b3M : MDP 1 1 := MDP.make (fun _ => !![1]) (fun _ => !![0]) (9/10)

/-- A 3-state, 2-action MDP (uniform dynamics, zero rewards), the §8 policy
enumeration scenario. -/
def c4M : MDP 3 2 :=
  MDP.make (fun _ => !![1/3, 1/3, 1/3; 1/3, 1/3, 1/3; 1/3, 1/3, 1/3])
    (fun _ => !![0, 0, 0; 0, 0, 0; 0, 0, 0]) (9/10)

/-- A 1-state, 11-action MDP: `gmpy.digits(10, 11)` is the letter `a`. -/
def mdp11 : MDP 1 11 :=
  MDP.make (fun _ => !![1]) (fun _ => !![0]) (9/10)

/-- An explicit (caller-supplied) observation function whose row sums to 2:
`BlockMDP` accepts it without validation. -/
def o3 : Matrix (Fin 1) (Fin 2) ℚ := !![1, 1]

/-- An explicit observation function with 3 columns over a 1-state base;
with the default `n_obs_per_block=2` the stored `n_states` disagrees with
the dimension of the derived matrices. -/
def o7 : Matrix (Fin 1) (Fin 3) ℚ := !![1/2, 1/4, 1/4]

/-- A 2-state, 1-action MDP whose transition matrix is a swap (so the
uniform distribution is stationary) and whose rewards are `-1` exactly on
the zero-probability transitions. -/
def c6M : MDP 2 1 :=
  MDP.make (fun _ => !![0, 1; 1, 0]) (fun _ => !![-1, 2; 3, -1]) (9/10)

/-- The identity aggregation on two states. -/
def c6Phi : Matrix (Fin 2) (Fin 2) ℚ := !![1, 0; 0, 1]

/-- The abstract MDP over `c6M` with the identity aggregation: its abstract
rewards are `[[0,2],[3,0]]` (guarded division zeroes the diagonal), so the
new reward minimum is `0` while the base reward minimum is `-1`. -/
def c6Abs : AbstractMDP 2 1 2 := AbstractMDP.make c6M c6Phi none none

/-- A 4-state, 1-action base MDP (identity dynamics, zero rewards) used to
probe `is_abstract_policy`. -/
def c2M : MDP 4 1 :=
  MDP.make (fun _ => !![1, 0, 0, 0; 0, 1, 0, 0; 0, 0, 1, 0; 0, 0, 0, 1])
    (fun _ => !![0, 0, 0, 0; 0, 0, 0, 0; 0, 0, 0, 0; 0, 0, 0, 0]) (9/10)

/-- An aggregation with two multi-member classes: `{0,1}` and `{2,3}`. -/
def c2Phi : Matrix (Fin 4) (Fin 2) ℚ := !![1, 0; 1, 0; 0, 1; 0, 1]

/-- The abstract MDP over `c2M` with aggregation `c2Phi`. -/
def c2Abs : AbstractMDP 4 1 2 := AbstractMDP.make c2M c2Phi none none

/-- A base policy that is constant on each class (`0` on `{0,1}`, `1` on
`{2,3}`) but not constant across the two classes. -/
def c2PiBad : Fin 4 → ℕ := ![0, 0, 1, 1]

/-- A base policy constant across all aggregated states. -/
def c2PiGood : Fin 4 → ℕ := fun _ => 1

/-!
## Helper lemmas
-/

theorem rowSum_eq_zero_of_all_zero {m n : ℕ} {M : Matrix (Fin m) (Fin n) ℚ}
    {i : Fin m} (h : ∀ j, M i j = 0) : rowSum M i = 0 := by
  unfold rowSum
  exact Finset.sum_eq_zero fun j _ => h j

theorem normalize_apply_of_rowSum_ne {m n : ℕ} (M : Matrix (Fin m) (Fin n) ℚ)
    {i : Fin m} (h : rowSum M i ≠ 0) (j : Fin n) :
    normalize M i j = M i j / rowSum M i := by
  simp [normalize, h]

theorem normalize_zero_row {m n : ℕ} (M : Matrix (Fin m) (Fin n) ℚ)
    {i : Fin m} (h : rowSum M i = 0) (j : Fin n) : normalize M i j = 0 := by
  simp [normalize, h]

theorem rowSum_normalize {m n : ℕ} (M : Matrix (Fin m) (Fin n) ℚ) (i : Fin m) :
    (∀ j, normalize M i j = 0) ∨ rowSum (normalize M) i = 1 := by
  by_cases h : rowSum M i = 0
  · exact Or.inl fun j => normalize_zero_row M h j
  · refine Or.inr ?_
    have hj : ∀ j, normalize M i j = M i j / rowSum M i :=
      normalize_apply_of_rowSum_ne M h
    unfold rowSum
    rw [Finset.sum_congr rfl (fun j _ => hj j), ← Finset.sum_div]
    show rowSum M i / rowSum M i = 1
    exact div_self h

theorem normalize_eq_self {m n : ℕ} (M : Matrix (Fin m) (Fin n) ℚ)
    (h : ∀ i, rowSum M i = 1 ∨ ∀ j, M i j = 0) : normalize M = M := by
  funext i j
  rcases h i with h1 | h0
  · rw [normalize_apply_of_rowSum_ne M (by rw [h1]; exact one_ne_zero), h1, div_one]
  · rw [normalize_zero_row M (rowSum_eq_zero_of_all_zero h0), h0 j]

theorem allcloseV_refl {n : ℕ} (v : Fin n → ℚ) : allcloseV v v = true := by
  unfold allcloseV
  rw [List.all_eq_true]
  intro i _
  rw [decide_eq_true_iff]
  have h1 : (0 : ℚ) < atol := by norm_num [atol]
  have h2 : (0 : ℚ) ≤ rtol * |v i| := mul_nonneg (by norm_num [rtol]) (abs_nonneg _)
  simp only [sub_self, abs_zero]
  linarith

theorem allcloseM_refl {m n : ℕ} (M : Matrix (Fin m) (Fin n) ℚ) :
    allcloseM M M = true := by
  unfold allcloseM
  rw [List.all_eq_true]
  exact fun i _ => allcloseV_refl (M i)

theorem is_stochastic_of_rows {m n : ℕ} (M : Matrix (Fin m) (Fin n) ℚ)
    (h : ∀ i, rowSum M i = 1 ∨ ∀ j, M i j = 0) : is_stochastic M = true := by
  unfold is_stochastic
  rw [normalize_eq_self M h]
  exact allcloseM_refl M

theorem rowSum_mul {l m n : ℕ} (A : Matrix (Fin l) (Fin m) ℚ)
    (B : Matrix (Fin m) (Fin n) ℚ) (i : Fin l) :
    rowSum (A * B) i = ∑ t, A i t * rowSum B t := by
  unfold rowSum
  simp only [Matrix.mul_apply, Finset.mul_sum]
  exact Finset.sum_comm

theorem divNat_finProdFinEquiv {m n : ℕ} (p : Fin m × Fin n) :
    (finProdFinEquiv p).divNat = p.1 := by
  have h := finProdFinEquiv.symm_apply_apply p
  rw [finProdFinEquiv_symm_apply] at h
  exact congrArg Prod.fst h

theorem modNat_finProdFinEquiv {m n : ℕ} (p : Fin m × Fin n) :
    (finProdFinEquiv p).modNat = p.2 := by
  have h := finProdFinEquiv.symm_apply_apply p
  rw [finProdFinEquiv_symm_apply] at h
  exact congrArg Prod.snd h

/-- Sums over the flat index `Fin (m * k)` decompose into block and
within-block position. -/
theorem sum_flat {m k : ℕ} (h : Fin m → Fin k → ℚ) :
    (∑ x : Fin (m * k), h x.divNat x.modNat) = ∑ s, ∑ j, h s j := by
  rw [← Equiv.sum_comp (finProdFinEquiv (m := m) (n := k))
    (fun x => h x.divNat x.modNat)]
  rw [Fintype.sum_prod_type]
  exact Finset.sum_congr rfl fun s _ => Finset.sum_congr rfl fun j _ => by
    rw [divNat_finProdFinEquiv, modNat_finProdFinEquiv]

section BlockStructure

variable {nS nA k : ℕ} (O : Matrix (Fin nS) (Fin (nS * k)) ℚ)

/-- Support condition satisfied by every synthesized observation function:
outside its own block a state emits nothing. -/
def BlockSupport : Prop :=
  ∀ (s : Fin nS) (x : Fin (nS * k)), x.divNat ≠ s → O s x = 0

theorem blockSupport_random_observation_fn (w : Fin nS → Fin k → ℚ) :
    BlockSupport (random_observation_fn nS k w) := by
  intro s x hx
  unfold random_observation_fn
  rw [if_neg hx, zero_mul]

theorem random_observation_fn_nonneg (w : Fin nS → Fin k → ℚ)
    (hw : ∀ s j, 0 ≤ w s j) (s : Fin nS) (x : Fin (nS * k)) :
    0 ≤ random_observation_fn nS k w s x := by
  unfold random_observation_fn normalizeRow
  refine mul_nonneg (by positivity) ?_
  by_cases h : (∑ j, w s j) = 0
  · rw [if_pos h]
  · rw [if_neg h]
    have hpos : 0 < ∑ j, w s j :=
      lt_of_le_of_ne (Finset.sum_nonneg fun j _ => hw s j) (Ne.symm h)
    exact div_nonneg (hw s x.modNat) (le_of_lt hpos)

theorem rowSum_random_observation_fn (w : Fin nS → Fin k → ℚ)
    (hs : ∀ s, (∑ j, w s j) ≠ 0) (s : Fin nS) :
    rowSum (random_observation_fn nS k w) s = 1 := by
  unfold rowSum random_observation_fn
  rw [sum_flat (fun b j => (if b = s then (1 : ℚ) else 0) * normalizeRow (w s) j)]
  rw [Finset.sum_eq_single s
    (fun b _ hb => by rw [Finset.sum_congr rfl fun j _ => by rw [if_neg hb, zero_mul],
      Finset.sum_const_zero])
    (fun hmem => absurd (Finset.mem_univ s) hmem)]
  unfold normalizeRow
  rw [Finset.sum_congr rfl fun j _ => by rw [if_pos rfl, one_mul, if_neg (hs s)]]
  rw [← Finset.sum_div]
  exact div_self (hs s)

/-- Collapse a sum against one column of the observation mask: only the block
of `x` can contribute. -/
theorem mask_collapse (hO : BlockSupport O) (f : Fin nS → ℚ) (x : Fin (nS * k)) :
    (∑ s, obsMask O s x * f s) = obsMask O x.divNat x * f x.divNat := by
  rw [Finset.sum_eq_single x.divNat]
  · intro b _ hb
    unfold obsMask
    rw [if_neg (by rw [hO b x (fun hc => hb hc.symm)]; exact lt_irrefl 0), zero_mul]
  · intro hmem
    exact absurd (Finset.mem_univ _) hmem

/-- Collapse a sum against one column of the observation function itself. -/
theorem obs_collapse (hO : BlockSupport O) (f : Fin nS → ℚ) (y : Fin (nS * k)) :
    (∑ t, f t * O t y) = f y.divNat * O y.divNat y := by
  rw [Finset.sum_eq_single y.divNat]
  · intro b _ hb
    rw [hO b y (fun hc => hb hc.symm), mul_zero]
  · intro hmem
    exact absurd (Finset.mem_univ _) hmem

theorem obsMask_apply (s : Fin nS) (x : Fin (nS * k)) :
    obsMask O s x = if 0 < O s x then 1 else 0 := rfl

theorem maskT_apply (s : Fin nS) (x : Fin (nS * k)) :
    (obsMask O).transpose x s = obsMask O s x :=
  Matrix.transpose_apply _ _ _

theorem obsMask_of_not_pos {s : Fin nS} {x : Fin (nS * k)} (h : ¬ 0 < O s x) :
    obsMask O s x = 0 := by
  rw [obsMask_apply, if_neg h]

theorem obsMask_of_ne_block (hO : BlockSupport O) {s : Fin nS}
    {x : Fin (nS * k)} (h : x.divNat ≠ s) : obsMask O s x = 0 := by
  rw [obsMask_apply, hO s x h, if_neg (lt_irrefl 0)]

theorem divNat_eq_of_pos (hO : BlockSupport O) {s : Fin nS}
    {x : Fin (nS * k)} (h : 0 < O s x) : x.divNat = s := by
  by_contra hc
  rw [hO s x hc] at h
  exact lt_irrefl 0 h

theorem obsMask_sq (s : Fin nS) (x : Fin (nS * k)) :
    obsMask O s x * obsMask O s x = obsMask O s x := by
  rw [obsMask_apply]
  by_cases hp : 0 < O s x
  · rw [if_pos hp, mul_one]
  · rw [if_neg hp, mul_zero]

/-- `obs_fn @ obs_mask.T = eye(n)` for a nonnegative, row-stochastic,
block-supported observation function. -/
theorem obs_mul_maskT (hO : BlockSupport O) (hnn : ∀ s x, 0 ≤ O s x)
    (hrow : ∀ s, rowSum O s = 1) :
    O * (obsMask O).transpose = (1 : Matrix (Fin nS) (Fin nS) ℚ) := by
  funext s t
  rw [Matrix.mul_apply]
  by_cases hst : s = t
  · subst hst
    rw [Matrix.one_apply_eq]
    have he : ∀ x, O s x * (obsMask O).transpose x s = O s x := by
      intro x
      rw [maskT_apply, obsMask_apply]
      by_cases hp : 0 < O s x
      · rw [if_pos hp, mul_one]
      · rw [le_antisymm (not_lt.mp hp) (hnn s x), if_neg (lt_irrefl 0), mul_zero]
    rw [Finset.sum_congr rfl fun x _ => he x]
    exact hrow s
  · rw [Matrix.one_apply_ne hst]
    refine Finset.sum_eq_zero fun x _ => ?_
    rw [maskT_apply]
    by_cases hp : 0 < O t x
    · have hxs : x.divNat ≠ s := by
        rw [divNat_eq_of_pos O hO hp]
        exact fun hc => hst hc.symm
      rw [hO s x hxs, zero_mul]
    · rw [obsMask_of_not_pos O hp, mul_zero]

/-- `belief @ obs_mask.T = eye(n)` whenever no aggregation class has zero
stationary mass on its support. -/
theorem belief_mul_maskT (hO : BlockSupport O) (d : Fin (nS * k) → ℚ)
    (hD : ∀ z, rowSum (fun z x => d x * (obsMask O).transpose x z) z ≠ 0) :
    beliefOf (obsMask O).transpose d * (obsMask O).transpose =
      (1 : Matrix (Fin nS) (Fin nS) ℚ) := by
  funext z t
  rw [Matrix.mul_apply]
  have hpre : ∀ z x, beliefOf (obsMask O).transpose d z x =
      d x * obsMask O z x / rowSum (fun z x => d x * (obsMask O).transpose x z) z := by
    intro z x
    unfold beliefOf
    rw [normalize_apply_of_rowSum_ne _ (hD z)]
    rw [maskT_apply]
  by_cases hzt : z = t
  · subst hzt
    rw [Matrix.one_apply_eq]
    have he : ∀ x, beliefOf (obsMask O).transpose d z x * (obsMask O).transpose x z =
        d x * obsMask O z x / rowSum (fun z x => d x * (obsMask O).transpose x z) z := by
      intro x
      rw [hpre z x, maskT_apply, div_mul_eq_mul_div, mul_assoc, obsMask_sq O z x]
    rw [Finset.sum_congr rfl fun x _ => he x, ← Finset.sum_div]
    have hnum : (∑ x, d x * obsMask O z x) =
        rowSum (fun z x => d x * (obsMask O).transpose x z) z := by
      unfold rowSum
      refine Finset.sum_congr rfl fun x _ => ?_
      show d x * obsMask O z x = d x * (obsMask O).transpose x z
      rw [maskT_apply]
    rw [hnum]
    exact div_self (hD z)
  · rw [Matrix.one_apply_ne hzt]
    refine Finset.sum_eq_zero fun x _ => ?_
    rw [hpre z x, maskT_apply]
    by_cases hp : 0 < O t x
    · have hmz : obsMask O z x = 0 := by
        refine obsMask_of_ne_block O hO ?_
        rw [divNat_eq_of_pos O hO hp]
        exact fun hc => hzt hc.symm
      rw [hmz, mul_zero, zero_div, zero_mul]
    · rw [obsMask_of_not_pos O hp, mul_zero]

theorem maskT_mul_apply (hO : BlockSupport O) (R : Matrix (Fin nS) (Fin nS) ℚ)
    (x : Fin (nS * k)) (t : Fin nS) :
    ((obsMask O).transpose * R) x t = obsMask O x.divNat x * R x.divNat t := by
  rw [Matrix.mul_apply]
  rw [Finset.sum_congr rfl fun s _ => by rw [maskT_apply]]
  exact mask_collapse O hO (fun s => R s t) x

theorem mul_obsMask_apply (hO : BlockSupport O)
    (B : Matrix (Fin (nS * k)) (Fin nS) ℚ) (x y : Fin (nS * k)) :
    (B * obsMask O) x y = B x y.divNat * obsMask O y.divNat y := by
  rw [Matrix.mul_apply]
  rw [Finset.sum_eq_single y.divNat
    (fun b _ hb => by rw [obsMask_of_ne_block O hO (fun hc => hb hc.symm), mul_zero])
    (fun hmem => absurd (Finset.mem_univ _) hmem)]

theorem mul_obs_apply (hO : BlockSupport O)
    (B : Matrix (Fin (nS * k)) (Fin nS) ℚ) (x y : Fin (nS * k)) :
    (B * O) x y = B x y.divNat * O y.divNat y := by
  rw [Matrix.mul_apply]
  exact obs_collapse O hO (fun t => B x t) y

/-- The elementwise product of the lifted reward and transition matrices of a
block MDP is itself a lifted matrix:
`(mask.T @ R @ mask) * (mask.T @ T @ obs) = mask.T @ (R*T) @ obs`. -/
theorem elemMul_lifted (hO : BlockSupport O) (hnn : ∀ s x, 0 ≤ O s x)
    (R T : Matrix (Fin nS) (Fin nS) ℚ) :
    elemMul ((obsMask O).transpose * R * obsMask O)
        ((obsMask O).transpose * T * O) =
      (obsMask O).transpose * elemMul R T * O := by
  funext x y
  unfold elemMul
  rw [mul_obsMask_apply O hO _ x y, mul_obs_apply O hO _ x y,
    mul_obs_apply O hO _ x y, maskT_mul_apply O hO R x y.divNat,
    maskT_mul_apply O hO T x y.divNat]
  rw [maskT_mul_apply O hO (fun i j => R i j * T i j) x y.divNat]
  by_cases hp : 0 < O y.divNat y
  · have he : obsMask O y.divNat y = 1 := by rw [obsMask_apply, if_pos hp]
    have hsq : obsMask O x.divNat x * obsMask O x.divNat x = obsMask O x.divNat x :=
      obsMask_sq O x.divNat x
    rw [he, mul_one]
    show obsMask O x.divNat x * R x.divNat y.divNat *
        (obsMask O x.divNat x * T x.divNat y.divNat * O y.divNat y) =
      obsMask O x.divNat x * (R x.divNat y.divNat * T x.divNat y.divNat) * O y.divNat y
    calc obsMask O x.divNat x * R x.divNat y.divNat *
          (obsMask O x.divNat x * T x.divNat y.divNat * O y.divNat y)
        = obsMask O x.divNat x * obsMask O x.divNat x *
          (R x.divNat y.divNat * T x.divNat y.divNat * O y.divNat y) := by ring
      _ = obsMask O x.divNat x *
          (R x.divNat y.divNat * T x.divNat y.divNat * O y.divNat y) := by rw [hsq]
      _ = obsMask O x.divNat x * (R x.divNat y.divNat * T x.divNat y.divNat) *
          O y.divNat y := by ring
  · rw [le_antisymm (not_lt.mp hp) (hnn y.divNat y), obsMask_of_not_pos O hp]
    ring

/-- The key cancellation: `belief @ (mask.T @ X @ Y) @ mask.T = X` whenever
`belief @ mask.T = 1` and `Y @ mask.T = 1`. -/
theorem sandwich_eq {bel : Matrix (Fin nS) (Fin (nS * k)) ℚ}
    {Y : Matrix (Fin nS) (Fin (nS * k)) ℚ}
    (hbel : bel * (obsMask O).transpose = 1)
    (hY : Y * (obsMask O).transpose = 1)
    (X : Matrix (Fin nS) (Fin nS) ℚ) :
    bel * ((obsMask O).transpose * X * Y) * (obsMask O).transpose = X := by
  rw [← Matrix.mul_assoc bel ((obsMask O).transpose * X) Y]
  rw [← Matrix.mul_assoc bel ((obsMask O).transpose) X]
  rw [hbel, Matrix.one_mul]
  rw [Matrix.mul_assoc X Y ((obsMask O).transpose)]
  rw [hY, Matrix.mul_one]

end BlockStructure

theorem absMake_T {n nA nZ : ℕ} (base : MDP n nA) (phi : Matrix (Fin n) (Fin nZ) ℚ)
    (pi : Option (Fin n → Fin nA)) (p0 : Option (Fin n → ℚ)) (a : Fin nA) :
    (AbstractMDP.make base phi pi p0).T a =
      compute_Tz phi (beliefOf phi (base.stationary_distribution pi p0)) (base.T a) :=
  rfl

theorem absMake_R {n nA nZ : ℕ} (base : MDP n nA) (phi : Matrix (Fin n) (Fin nZ) ℚ)
    (pi : Option (Fin n → Fin nA)) (p0 : Option (Fin n → ℚ)) (a : Fin nA) :
    (AbstractMDP.make base phi pi p0).R a =
      compute_Rz phi (beliefOf phi (base.stationary_distribution pi p0)) (base.R a)
        (base.T a)
        (compute_Tz phi (beliefOf phi (base.stationary_distribution pi p0))
          (base.T a)) :=
  rfl

theorem blockSynth_toMDP_T {nS nA k : ℕ} (M : MDP nS nA) (w : Fin nS → Fin k → ℚ)
    (a : Fin nA) :
    (blockSynth M k w).toMDP.T a =
      (obsMask (random_observation_fn nS k w)).transpose * M.T a *
        random_observation_fn nS k w :=
  rfl

theorem blockSynth_toMDP_R {nS nA k : ℕ} (M : MDP nS nA) (w : Fin nS → Fin k → ℚ)
    (a : Fin nA) :
    (blockSynth M k w).toMDP.R a =
      (obsMask (random_observation_fn nS k w)).transpose * M.R a *
        obsMask (random_observation_fn nS k w) :=
  rfl

theorem perfectPhi_blockSynth {nS nA k : ℕ} (M : MDP nS nA)
    (w : Fin nS → Fin k → ℚ) :
    perfectPhi (blockSynth M k w) =
      (obsMask (random_observation_fn nS k w)).transpose :=
  rfl

/-!
## Claims
-/

/-- **C1** (amended).  Round-trip identity: for a base MDP `M` and the
`BlockMDP` `B = blockSynth M k w` built from it with block factor `k`
(splits drawn from `w`), the `AbstractMDP` built from `B` with the perfect
abstraction `phi = (B.obs_fn.T > 0)` recovers `A.T = M.T` and `A.R = M.R`
exactly (hence within any tolerance), *provided*: the configuration is one
the source can construct (`1 ≤ n_states`, and not the `n_obs_per_block = 1`
with `n_states ≥ 2` corner where `random_observation_fn` raises a
broadcasting `ValueError`), the split draws are nonnegative with nonzero
row sums (so `obs_fn` is row-stochastic, which holds almost surely of
`np.random.rand` draws), every abstract class retains nonzero mass in the
stationary distribution used for the belief, and `M.R` vanishes wherever
`M.T` vanishes (as holds for `MDP.generate`, whose sparsity mask multiplies
both).  Without the last hypothesis `A.R` can differ from `M.R` at
zero-probability transitions, and without the mass hypothesis whole rows
of `A.T` collapse to zero. -/
theorem C1_round_trip_amended (nS nA k : ℕ) (M : MDP nS nA)
    (w : Fin nS → Fin k → ℚ)
    (hS : 1 ≤ nS) (hk : nS = 1 ∨ k ≠ 1)
    (hw : ∀ s j, 0 ≤ w s j)
    (hws : ∀ s, (∑ j, w s j) ≠ 0)
    (hD : ∀ z : Fin nS,
      rowSum (fun z x =>
        (blockSynth M k w).toMDP.stationary_distribution none none x *
          perfectPhi (blockSynth M k w) x z) z ≠ 0)
    (hRT : ∀ a s t, M.T a s t = 0 → M.R a s t = 0) :
    ∀ a, (AbstractMDP.make (blockSynth M k w).toMDP
            (perfectPhi (blockSynth M k w)) none none).T a = M.T a ∧
         (AbstractMDP.make (blockSynth M k w).toMDP
            (perfectPhi (blockSynth M k w)) none none).R a = M.R a := by
  intro a
  have hO : BlockSupport (random_observation_fn nS k w) :=
    blockSupport_random_observation_fn w
  have hnn : ∀ s x, 0 ≤ random_observation_fn nS k w s x :=
    random_observation_fn_nonneg w hw
  have hrow : ∀ s, rowSum (random_observation_fn nS k w) s = 1 :=
    rowSum_random_observation_fn w hws
  have h8 : random_observation_fn nS k w *
      (obsMask (random_observation_fn nS k w)).transpose = 1 :=
    obs_mul_maskT _ hO hnn hrow
  have hD' : ∀ z, rowSum (fun z x =>
      (blockSynth M k w).toMDP.stationary_distribution none none x *
        (obsMask (random_observation_fn nS k w)).transpose x z) z ≠ 0 := by
    intro z
    have h := hD z
    rw [perfectPhi_blockSynth] at h
    exact h
  have h9 : beliefOf (obsMask (random_observation_fn nS k w)).transpose
        ((blockSynth M k w).toMDP.stationary_distribution none none) *
      (obsMask (random_observation_fn nS k w)).transpose = 1 :=
    belief_mul_maskT _ hO _ hD'
  have hT : (AbstractMDP.make (blockSynth M k w).toMDP
      (perfectPhi (blockSynth M k w)) none none).T a = M.T a := by
    rw [absMake_T, perfectPhi_blockSynth, blockSynth_toMDP_T]
    unfold compute_Tz
    exact sandwich_eq _ h9 h8 (M.T a)
  refine ⟨hT, ?_⟩
  rw [absMake_R, perfectPhi_blockSynth, blockSynth_toMDP_T, blockSynth_toMDP_R]
  unfold compute_Rz compute_Tz
  rw [elemMul_lifted _ hO hnn (M.R a) (M.T a)]
  rw [sandwich_eq _ h9 h8 (elemMul (M.R a) (M.T a))]
  rw [sandwich_eq _ h9 h8 (M.T a)]
  funext s t
  unfold npDivide elemMul
  by_cases hz : M.T a s t = 0
  · rw [if_pos hz, hRT a s t hz]
  · rw [if_neg hz]
    exact mul_div_cancel_right₀ (M.R a s t) hz

set_option maxRecDepth 100000 in
/-- **C1** counterexample.  The round-trip identity fails as universally
stated: for the base MDP `c1M` (state 1 unreachable under the single
action) and block factor 2 — a configuration `BlockMDP(c1M, 2)` really
constructs, with strictly positive splits — the stationary distribution of
the block MDP puts zero mass on both observations of state 1, the belief
row of that class is all zero, and the reconstructed `A.T`/`A.R` differ
from `M.T`/`M.R` far beyond the `np.allclose` tolerance
(`A.T[0]` has an all-zero second row instead of `[1,0]`, and
`A.R[0][0,1] = 0` instead of `5`). -/
theorem C1_counterexample :
    allcloseM (c1Abs.T 0) (c1M.T 0) = false ∧
    allcloseM (c1Abs.R 0) (c1M.R 0) = false := by
  constructor
  · with_unfolding_all decide
  · with_unfolding_all decide

set_option maxRecDepth 100000 in
/-- **C1** witness: the amended round-trip theorem applied to the concrete
1-state base MDP `w1M` with block factor 2, where all hypotheses hold. -/
theorem C1_witness :
    ((1 ≤ 1 ∧ (1 = 1 ∨ 2 ≠ 1)) ∧
      (∀ s j, 0 ≤ w1W s j) ∧ (∀ s : Fin 1, (∑ j, w1W s j) ≠ 0) ∧
      (∀ z : Fin 1,
        rowSum (fun z x =>
          (blockSynth w1M 2 w1W).toMDP.stationary_distribution none none x *
            perfectPhi (blockSynth w1M 2 w1W) x z) z ≠ 0) ∧
      (∀ a s t, w1M.T a s t = 0 → w1M.R a s t = 0)) ∧
    (AbstractMDP.make (blockSynth w1M 2 w1W).toMDP
        (perfectPhi (blockSynth w1M 2 w1W)) none none).T 0 = w1M.T 0 ∧
    (AbstractMDP.make (blockSynth w1M 2 w1W).toMDP
        (perfectPhi (blockSynth w1M 2 w1W)) none none).R 0 = w1M.R 0 :=
  ⟨⟨⟨by decide, by decide⟩,
    by with_unfolding_all decide, by with_unfolding_all decide,
    by with_unfolding_all decide, by with_unfolding_all decide⟩,
   C1_round_trip_amended 1 1 2 w1M w1W (by decide) (by decide)
    (by with_unfolding_all decide) (by with_unfolding_all decide)
    (by with_unfolding_all decide) (by with_unfolding_all decide) 0⟩

theorem generate_T (nS nA : ℕ) (sparsity gamma : ℚ)
    (Td Rd md : Fin nA → Matrix (Fin nS) (Fin nS) ℚ) (a : Fin nA) :
    (MDP.generate nS nA sparsity gamma Td Rd md).T a =
      if 0 < sparsity
        then normalize (elemMul (normalize (Td a)) (md a))
        else normalize (Td a) :=
  rfl

theorem normalize_rows (M : Matrix (Fin m) (Fin n) ℚ) (i : Fin m) :
    rowSum (normalize M) i = 1 ∨ ∀ j, normalize M i j = 0 :=
  (rowSum_normalize M i).symm

theorem normalize_stochastic {m n : ℕ} (M : Matrix (Fin m) (Fin n) ℚ) :
    is_stochastic (normalize M) = true :=
  is_stochastic_of_rows _ (fun i => normalize_rows M i)

theorem zero_row_mul {l m n : ℕ} (A : Matrix (Fin l) (Fin m) ℚ)
    (B : Matrix (Fin m) (Fin n) ℚ) (i : Fin l) (h : ∀ x, A i x = 0) (j : Fin n) :
    (A * B) i j = 0 := by
  rw [Matrix.mul_apply]
  exact Finset.sum_eq_zero fun x _ => by rw [h x, zero_mul]

/-- Row sums of a synthesized block MDP transition matrix: each row sums to
1 or is all zero, provided the base rows do and the splits are valid. -/
theorem blockSynth_rows {nS nA k : ℕ} (M : MDP nS nA) (w : Fin nS → Fin k → ℚ)
    (hws : ∀ s, (∑ j, w s j) ≠ 0)
    (hbase : ∀ a s, rowSum (M.T a) s = 1 ∨ ∀ t, M.T a s t = 0) (a : Fin nA) :
    ∀ x, rowSum ((blockSynth M k w).toMDP.T a) x = 1 ∨
      ∀ y, (blockSynth M k w).toMDP.T a x y = 0 := by
  intro x
  have hO : BlockSupport (random_observation_fn nS k w) :=
    blockSupport_random_observation_fn w
  have hrs : rowSum ((obsMask (random_observation_fn nS k w)).transpose * M.T a *
        random_observation_fn nS k w) x =
      obsMask (random_observation_fn nS k w) x.divNat x *
        rowSum (M.T a) x.divNat := by
    rw [rowSum_mul]
    rw [Finset.sum_congr rfl fun t _ => by
      rw [rowSum_random_observation_fn w hws t, mul_one,
        maskT_mul_apply _ hO (M.T a) x t]]
    rw [← Finset.mul_sum]
    rfl
  have hent : ∀ y, ((obsMask (random_observation_fn nS k w)).transpose * M.T a *
        random_observation_fn nS k w) x y =
      obsMask (random_observation_fn nS k w) x.divNat x *
        M.T a x.divNat y.divNat * random_observation_fn nS k w y.divNat y := by
    intro y
    rw [mul_obs_apply _ hO, maskT_mul_apply _ hO]
  rw [blockSynth_toMDP_T]
  rcases hbase a x.divNat with h1 | h0
  · by_cases he : 0 < random_observation_fn nS k w x.divNat x
    · left
      rw [hrs, h1, obsMask_apply, if_pos he, one_mul]
    · right
      intro y
      rw [hent y, obsMask_of_not_pos _ he, zero_mul, zero_mul]
  · right
    intro y
    rw [hent y, h0 y.divNat, mul_zero, zero_mul]

/-- Row sums of an abstract MDP transition matrix: each row sums to 1 or is
all zero, provided the base rows are stochastic and each row of `phi` sums
to 1. -/
theorem abstract_rows {n nA nZ : ℕ} (base : MDP n nA)
    (phi : Matrix (Fin n) (Fin nZ) ℚ) (pi : Option (Fin n → Fin nA))
    (p0 : Option (Fin n → ℚ)) (hbase : ∀ a s, rowSum (base.T a) s = 1)
    (hphi : ∀ t, rowSum phi t = 1) (a : Fin nA) :
    ∀ z, rowSum ((AbstractMDP.make base phi pi p0).T a) z = 1 ∨
      ∀ v, (AbstractMDP.make base phi pi p0).T a z v = 0 := by
  intro z
  rw [absMake_T]
  unfold compute_Tz
  have h1 : rowSum (beliefOf phi (base.stationary_distribution pi p0) *
      base.T a * phi) z =
      rowSum (beliefOf phi (base.stationary_distribution pi p0)) z := by
    rw [rowSum_mul]
    rw [Finset.sum_congr rfl fun t _ => by rw [hphi t, mul_one]]
    show rowSum (beliefOf phi (base.stationary_distribution pi p0) * base.T a) z = _
    rw [rowSum_mul]
    rw [Finset.sum_congr rfl fun s _ => by rw [hbase a s, mul_one]]
    rfl
  rcases rowSum_normalize
      (fun z x => (base.stationary_distribution pi p0) x * phi x z) z with hz | hs
  · right
    intro v
    have hrow0 : ∀ x, beliefOf phi (base.stationary_distribution pi p0) z x = 0 := hz
    have hmid : ∀ t, (beliefOf phi (base.stationary_distribution pi p0) *
        base.T a) z t = 0 :=
      fun t => zero_row_mul _ _ z hrow0 t
    exact zero_row_mul _ _ z hmid v
  · left
    rw [h1]
    exact hs

theorem is_abstract_policy_eq {n nA nZ : ℕ} (m : AbstractMDP n nA nZ)
    (pi : Fin n → ℕ) :
    m.is_abstract_policy pi =
      match (List.finRange n).filter (fun x => decide (aggVec m.phi x ≠ 0)) with
      | [] => none
      | x0 :: xs => some ((x0 :: xs).all (fun x => pi x == pi x0)) :=
  rfl

theorem mem_agg_filter {n nZ : ℕ} (phi : Matrix (Fin n) (Fin nZ) ℚ)
    (x : Fin n) :
    x ∈ (List.finRange n).filter (fun x => decide (aggVec phi x ≠ 0)) ↔
      aggVec phi x ≠ 0 := by
  rw [List.mem_filter]
  simp [List.mem_finRange]

/-- **C2** counterexample.  On the aggregation `c2Phi` with the two
multi-member classes `{0,1}` and `{2,3}`, the policy `[0,0,1,1]` is constant
on each class (so the per-class reading of the claim accepts it), but
`is_abstract_policy` gathers the actions of *all* aggregated states into one
vector and compares them against the first one, hence returns `False`. -/
theorem C2_counterexample :
    c2Abs.is_abstract_policy c2PiBad = some false ∧
      perClassAbstractPolicy c2Abs.phi c2PiBad := by
  constructor
  · with_unfolding_all decide
  · with_unfolding_all decide

/-- **C2** (amended).  What `is_abstract_policy` actually decides: it
returns `True` iff at least one state is flagged by the `agg_states` vector
and *all* flagged states (across all multi-member classes together) share
one single action; when no state is flagged, the `[0]` index into the empty
gather raises `IndexError` (`none`).  For a binary `phi`, a state is flagged
exactly when it belongs to some class with column sum above one. -/
theorem C2_is_abstract_policy_amended {n nA nZ : ℕ} (m : AbstractMDP n nA nZ)
    (pi : Fin n → ℕ) :
    (m.is_abstract_policy pi = some true ↔
      ((∃ x, aggVec m.phi x ≠ 0) ∧
        ∀ x y, aggVec m.phi x ≠ 0 → aggVec m.phi y ≠ 0 → pi x = pi y)) ∧
    (m.is_abstract_policy pi = none ↔ ∀ x, aggVec m.phi x = 0) ∧
    ((∀ x z, m.phi x z = 0 ∨ m.phi x z = 1) →
      ∀ x, (aggVec m.phi x ≠ 0 ↔
        ∃ z, (1 < ∑ y, m.phi y z) ∧ m.phi x z = 1)) := by
  refine ⟨?_, ?_, ?_⟩
  · rw [is_abstract_policy_eq]
    cases hL : (List.finRange n).filter (fun x => decide (aggVec m.phi x ≠ 0)) with
    | nil =>
      have hall : ∀ x, ¬ aggVec m.phi x ≠ 0 := by
        intro x hx
        have hmem : x ∈ (List.finRange n).filter
            (fun x => decide (aggVec m.phi x ≠ 0)) := (mem_agg_filter m.phi x).mpr hx
        rw [hL] at hmem
        exact absurd hmem (List.not_mem_nil x)
      constructor
      · intro hfalse
        exact absurd hfalse (by simp)
      · rintro ⟨⟨x, hx⟩, -⟩
        exact absurd hx (hall x)
    | cons x0 xs =>
      have hx0 : aggVec m.phi x0 ≠ 0 := by
        have hmem : x0 ∈ (List.finRange n).filter
            (fun x => decide (aggVec m.phi x ≠ 0)) := by
          rw [hL]; exact List.mem_cons_self x0 xs
        exact (mem_agg_filter m.phi x0).mp hmem
      have hin : ∀ x, aggVec m.phi x ≠ 0 → x ∈ x0 :: xs := by
        intro x hx
        rw [← hL]
        exact (mem_agg_filter m.phi x).mpr hx
      have hagg : ∀ x, x ∈ x0 :: xs → aggVec m.phi x ≠ 0 := by
        intro x hx
        rw [← hL] at hx
        exact (mem_agg_filter m.phi x).mp hx
      simp only [Option.some_inj, List.all_eq_true, beq_iff_eq]
      constructor
      · intro hall
        refine ⟨⟨x0, hx0⟩, fun x y hx hy => ?_⟩
        rw [hall x (hin x hx), hall y (hin y hy)]
      · rintro ⟨-, hpair⟩
        intro x hx
        exact hpair x x0 (hagg x hx) hx0
  · rw [is_abstract_policy_eq]
    cases hL : (List.finRange n).filter (fun x => decide (aggVec m.phi x ≠ 0)) with
    | nil =>
      simp only [true_iff]
      intro x
      by_contra hx
      have hmem : x ∈ (List.finRange n).filter
          (fun x => decide (aggVec m.phi x ≠ 0)) := (mem_agg_filter m.phi x).mpr hx
      rw [hL] at hmem
      exact absurd hmem (List.not_mem_nil x)
    | cons x0 xs =>
      have hx0 : aggVec m.phi x0 ≠ 0 := by
        have hmem : x0 ∈ (List.finRange n).filter
            (fun x => decide (aggVec m.phi x ≠ 0)) := by
          rw [hL]; exact List.mem_cons_self x0 xs
        exact (mem_agg_filter m.phi x0).mp hmem
      constructor
      · intro hcon
        exact absurd hcon (by simp)
      · intro hall
        exact absurd (hall x0) hx0
  · intro hbin x
    constructor
    · intro hne
      by_contra hno
      push_neg at hno
      apply hne
      unfold aggVec
      refine Finset.sum_eq_zero fun z _ => ?_
      by_cases hc : 1 < ∑ y, m.phi y z
      · rcases hbin x z with h0 | h1
        · rw [h0, mul_zero]
        · exact absurd h1 (hno z hc)
      · rw [if_neg hc, zero_mul]
    · rintro ⟨z, hz, hz1⟩
      unfold aggVec
      intro hc
      have hterm : ∀ w ∈ Finset.univ,
          (0 : ℚ) ≤ (if 1 < ∑ y, m.phi y w then (1 : ℚ) else 0) * m.phi x w := by
        intro w _
        rcases hbin x w with h0 | h1
        · rw [h0, mul_zero]
        · rw [h1, mul_one]
          split <;> norm_num
      have hle := Finset.single_le_sum hterm (Finset.mem_univ z)
      rw [hc, if_pos hz, hz1, mul_one] at hle
      norm_num at hle

/-- **C3** counterexample.  The stochasticity invariant does not hold of
*every* constructed `BlockMDP`: constructing one with an explicit,
non-row-stochastic observation function (`o3`, row sum 2) yields
`T[0] = [[1,1],[1,1]]`, whose rows sum to 2 — neither 1 nor 0 — and
`is_stochastic` is false.  The source performs no validation of a
caller-supplied `obs_fn`. -/
theorem C3_counterexample :
    is_stochastic ((blockExplicit b3M 2 o3).toMDP.T 0) = false ∧
    rowSum ((blockExplicit b3M 2 o3).toMDP.T 0) 0 = 2 := by
  constructor
  · with_unfolding_all decide
  · with_unfolding_all decide

/-- **C3** (amended).  Stochasticity invariant, with the validity hypotheses
the construction actually needs:
* every `MDP.generate` output (any sparsity, any draws): each `T[a]` row
  sums to 1 or is all zero, and `is_stochastic(T[a])` holds — this part is
  unconditional because `normalize` is (re)applied last;
* every `BlockMDP` with a *synthesized* observation function whose split
  draws have nonzero row sums, over a base whose `T` rows sum to 1 or are
  all zero: same conclusion (an explicit `obs_fn` must be row-stochastic
  with block-disjoint support for this, which is not validated — see the
  counterexample);
* every `AbstractMDP` over a base with row-stochastic `T` and a `phi` whose
  rows sum to 1: same conclusion (rows of classes with zero belief mass are
  all zero). -/
theorem C3_stochasticity_amended :
    (∀ (nS nA : ℕ) (sparsity gamma : ℚ)
      (Td Rd md : Fin nA → Matrix (Fin nS) (Fin nS) ℚ) (a : Fin nA),
      is_stochastic ((MDP.generate nS nA sparsity gamma Td Rd md).T a) = true ∧
      ∀ s, rowSum ((MDP.generate nS nA sparsity gamma Td Rd md).T a) s = 1 ∨
        ∀ t, (MDP.generate nS nA sparsity gamma Td Rd md).T a s t = 0) ∧
    (∀ (nS nA k : ℕ) (M : MDP nS nA) (w : Fin nS → Fin k → ℚ),
      (∀ s, (∑ j, w s j) ≠ 0) →
      (∀ a s, rowSum (M.T a) s = 1 ∨ ∀ t, M.T a s t = 0) →
      ∀ a : Fin nA,
        is_stochastic ((blockSynth M k w).toMDP.T a) = true ∧
        ∀ x, rowSum ((blockSynth M k w).toMDP.T a) x = 1 ∨
          ∀ y, (blockSynth M k w).toMDP.T a x y = 0) ∧
    (∀ (n nA nZ : ℕ) (base : MDP n nA) (phi : Matrix (Fin n) (Fin nZ) ℚ)
      (pi : Option (Fin n → Fin nA)) (p0 : Option (Fin n → ℚ)),
      (∀ a s, rowSum (base.T a) s = 1) →
      (∀ t, rowSum phi t = 1) →
      ∀ a : Fin nA,
        is_stochastic ((AbstractMDP.make base phi pi p0).T a) = true ∧
        ∀ z, rowSum ((AbstractMDP.make base phi pi p0).T a) z = 1 ∨
          ∀ v, (AbstractMDP.make base phi pi p0).T a z v = 0) := by
  refine ⟨?_, ?_, ?_⟩
  · intro nS nA sparsity gamma Td Rd md a
    rw [generate_T]
    by_cases hsp : 0 < sparsity
    · rw [if_pos hsp]
      exact ⟨normalize_stochastic _, fun s => normalize_rows _ s⟩
    · rw [if_neg hsp]
      exact ⟨normalize_stochastic _, fun s => normalize_rows _ s⟩
  · intro nS nA k M w hws hbase a
    have hrows := blockSynth_rows M w hws hbase a
    exact ⟨is_stochastic_of_rows _ hrows, hrows⟩
  · intro n nA nZ base phi pi p0 hbase hphi a
    have hrows := abstract_rows base phi pi p0 hbase hphi a
    exact ⟨is_stochastic_of_rows _ hrows, hrows⟩

/-- **C3** witness: the three amended parts evaluated on concrete instances
(a sparse 1-state generated MDP; the block MDP over `w1M` with factor 2;
the abstract MDP over the 4-state `c2M` with aggregation `c2Phi`). -/
theorem C3_witness :
    (is_stochastic ((MDP.generate 1 1 (1/2) (9/10) (fun _ => !![3])
        (fun _ => !![1]) (fun _ => !![1])).T 0) = true) ∧
    (is_stochastic ((blockSynth w1M 2 w1W).toMDP.T 0) = true) ∧
    (is_stochastic ((AbstractMDP.make c2M c2Phi none none).T 0) = true) :=
  ⟨(C3_stochasticity_amended.1 1 1 (1/2) (9/10) (fun _ => !![3])
      (fun _ => !![1]) (fun _ => !![1]) 0).1,
   (C3_stochasticity_amended.2.1 1 1 2 w1M w1W
      (by with_unfolding_all decide) (by with_unfolding_all decide) 0).1,
   (C3_stochasticity_amended.2.2 4 1 2 c2M c2Phi none none
      (by with_unfolding_all decide) (by with_unfolding_all decide) 0).1⟩

/-- **C2** witness: the amended characterization evaluated on the concrete
aggregation `c2Phi`; the globally constant policy is accepted, and the
flagged states are exactly the members of the two multi-member classes. -/
theorem C2_witness :
    c2Abs.is_abstract_policy c2PiGood = some true ∧
    (∀ x, (aggVec c2Abs.phi x ≠ 0 ↔
      ∃ z, (1 < ∑ y, c2Abs.phi y z) ∧ c2Abs.phi x z = 1)) :=
  ⟨(C2_is_abstract_policy_amended c2Abs c2PiGood).1.mpr
      (by with_unfolding_all decide),
   (C2_is_abstract_policy_amended c2Abs c2PiGood).2.2
      (by with_unfolding_all decide)⟩

theorem digitsRevAux_eq {b : ℕ} (hb : 1 < b) :
    ∀ fuel n : ℕ, n ≤ fuel → digitsRevAux b fuel n = Nat.digits b n := by
  intro fuel
  induction fuel with
  | zero =>
    intro n hn
    rw [Nat.le_zero.mp hn, Nat.digits_zero]
    rfl
  | succ f ih =>
    intro n hn
    unfold digitsRevAux
    by_cases h0 : n = 0
    · rw [if_pos h0, h0, Nat.digits_zero]
    · rw [if_neg h0]
      have hpos : 0 < n := Nat.pos_of_ne_zero h0
      have hdiv : n / b ≤ f := by
        have h1 : n / b < n := Nat.div_lt_self hpos hb
        omega
      rw [ih (n / b) hdiv, Nat.digits_def' hb hpos]

theorem gmpyDigits_eq {b : ℕ} (hb : 1 < b) {n : ℕ} (h0 : n ≠ 0) :
    gmpyDigits b n = (Nat.digits b n).reverse := by
  unfold gmpyDigits
  rw [if_neg h0, digitsRevAux_eq hb n n le_rfl]

theorem gmpyDigits_len_le {b : ℕ} (hb : 1 < b) {n k : ℕ} (hk : 1 ≤ k)
    (h : n < b ^ k) : (gmpyDigits b n).length ≤ k := by
  by_cases h0 : n = 0
  · rw [h0]
    exact hk
  · rw [gmpyDigits_eq hb h0, List.length_reverse,
      Nat.digits_len b n hb h0]
    have hlog : Nat.log b n < k := (Nat.lt_pow_iff_log_lt hb h0).mp h
    omega

theorem gmpyDigits_lt {b : ℕ} (hb : 1 < b) {n d : ℕ}
    (hd : d ∈ gmpyDigits b n) : d < b := by
  by_cases h0 : n = 0
  · rw [h0] at hd
    have : d = 0 := List.mem_singleton.mp hd
    omega
  · rw [gmpyDigits_eq hb h0, List.mem_reverse] at hd
    exact Nat.digits_lt_base hb hd

theorem ofDigits_replicate_zero (b : ℕ) :
    ∀ m, Nat.ofDigits b (List.replicate m 0) = 0 := by
  intro m
  induction m with
  | zero => rfl
  | succ t ih =>
    rw [List.replicate_succ, Nat.ofDigits_cons, ih]
    simp

theorem ofDigits_zfilled {b : ℕ} (hb : 1 < b) (nS n : ℕ) :
    Nat.ofDigits b (zfilled nS b n).reverse = n := by
  unfold zfilled
  rw [List.reverse_append, List.reverse_replicate, Nat.ofDigits_append,
    ofDigits_replicate_zero, mul_zero, add_zero]
  by_cases h0 : n = 0
  · rw [h0]
    show Nat.ofDigits b [0] = 0
    rw [Nat.ofDigits_cons, Nat.ofDigits_nil]
    simp
  · rw [gmpyDigits_eq hb h0, List.reverse_reverse, Nat.ofDigits_digits]

theorem zfilled_length {b : ℕ} (hb : 1 < b) {nS n : ℕ} (hS : 1 ≤ nS)
    (h : n < b ^ nS) : (zfilled nS b n).length = nS := by
  unfold zfilled
  rw [List.length_append, List.length_replicate]
  have := gmpyDigits_len_le hb hS h
  omega

theorem zfilled_mem_lt {b : ℕ} (hb : 1 < b) {nS n d : ℕ}
    (hd : d ∈ zfilled nS b n) : d < b := by
  unfold zfilled at hd
  rcases List.mem_append.mp hd with h | h
  · have : d = 0 := List.eq_of_mem_replicate h
    omega
  · exact gmpyDigits_lt hb h

theorem get_policy_ok {nS nA : ℕ} (m : MDP nS nA) (hA2 : 2 ≤ nA)
    (hA10 : nA ≤ 10) (i : ℕ) (hi : i < nA ^ nS) :
    m.get_policy (i : ℤ) = .ok (zfilled nS nA i) := by
  have hb : 1 < nA := hA2
  have hilt : (i : ℤ) < (nA : ℤ) ^ nS := by
    exact_mod_cast hi
  unfold MDP.get_policy
  rw [if_neg (by simpa using hilt)]
  rw [if_neg (by omega)]
  rw [if_neg (by omega)]
  rw [if_neg (by omega)]
  have htoNat : (i : ℤ).toNat = i := Int.toNat_natCast i
  rw [htoNat]
  rw [if_pos]
  rw [List.all_eq_true]
  intro d hd
  have : d < nA := zfilled_mem_lt hb hd
  simpa using by omega

theorem mapM_ok {α β : Type} (f : α → Except PyErr β) (g : α → β) :
    ∀ l : List α, (∀ a ∈ l, f a = .ok (g a)) → l.mapM f = .ok (l.map g) := by
  intro l
  induction l with
  | nil => intro _; rfl
  | cons a t ih =>
    intro h
    rw [List.mapM_cons, h a (List.mem_cons_self a t),
      ih fun x hx => h x (List.mem_cons_of_mem a hx)]
    rfl

/-- **C4** counterexample.  With 11 actions, `get_policy(10)` does not
produce a policy even though `10` is inside `[0, 11 ^ 1)`: `gmpy.digits`
renders the digit ten as the letter `a`, and the `int` conversion inside
`np.asarray(..., dtype=int)` raises `ValueError`. -/
theorem C4_counterexample :
    mdp11.get_policy (10 : ℤ) = .error .valueError ∧ (10 : ℤ) < 11 ^ 1 := by
  constructor
  · with_unfolding_all decide
  · decide

/-- **C4** (amended).  For `1 ≤ n_states` and `2 ≤ n_actions ≤ 10` (so every
digit character is a decimal digit that `int` accepts):
`get_policy` is injective on `[0, n_actions ^ n_states)`, `all_policies()`
returns exactly that many policies, the `i`-th being `get_policy(i)`, and
the 3-state 2-action instance yields the 8 policies from `[0,0,0]` to
`[1,1,1]` in order.  Outside `2 ≤ n_actions ≤ 10` the claim fails (see the
counterexample); for `n_states = 0` the padded digit string of `0` still
has length 1. -/
theorem C4_policy_enumeration_amended {nS nA : ℕ} (m : MDP nS nA)
    (hA2 : 2 ≤ nA) (hA10 : nA ≤ 10) :
    (∀ i j : ℕ, i < nA ^ nS → j < nA ^ nS →
      m.get_policy (i : ℤ) = m.get_policy (j : ℤ) → i = j) ∧
    (m.all_policies = .ok ((List.range (nA ^ nS)).map (zfilled nS nA)) ∧
      ((List.range (nA ^ nS)).map (zfilled nS nA)).length = nA ^ nS ∧
      ∀ i : ℕ, i < nA ^ nS →
        ((List.range (nA ^ nS)).map (zfilled nS nA)).get? i =
          some (zfilled nS nA i) ∧
        m.get_policy (i : ℤ) = .ok (zfilled nS nA i)) ∧
    c4M.all_policies = .ok [[0,0,0], [0,0,1], [0,1,0], [0,1,1],
      [1,0,0], [1,0,1], [1,1,0], [1,1,1]] := by
  have hb : 1 < nA := hA2
  refine ⟨?_, ⟨?_, ?_, ?_⟩, ?_⟩
  · intro i j hi hj h
    rw [get_policy_ok m hA2 hA10 i hi, get_policy_ok m hA2 hA10 j hj] at h
    have hz : zfilled nS nA i = zfilled nS nA j := by
      injection h
    have h2 : Nat.ofDigits nA (zfilled nS nA i).reverse =
        Nat.ofDigits nA (zfilled nS nA j).reverse :=
      congrArg (fun L => Nat.ofDigits nA L.reverse) hz
    rwa [ofDigits_zfilled hb, ofDigits_zfilled hb] at h2
  · unfold MDP.all_policies
    exact mapM_ok _ _ _ fun a ha =>
      get_policy_ok m hA2 hA10 a (List.mem_range.mp ha)
  · rw [List.length_map, List.length_range]
  · intro i hi
    constructor
    · rw [List.get?_map, List.get?_range hi]
      rfl
    · exact get_policy_ok m hA2 hA10 i hi
  · with_unfolding_all decide

/-- **C4** witness: the amended enumeration theorem applied to the concrete
3-state 2-action MDP, together with two evaluated decodes. -/
theorem C4_witness :
    c4M.all_policies = .ok ((List.range (2 ^ 3)).map (zfilled 3 2)) ∧
    c4M.get_policy (0 : ℤ) = .ok [0, 0, 0] ∧
    c4M.get_policy (7 : ℤ) = .ok [1, 1, 1] :=
  ⟨(C4_policy_enumeration_amended c4M (by decide) (by decide)).2.1.1,
   by with_unfolding_all decide,
   by with_unfolding_all decide⟩

/-- **C8** counterexample.  For negative `i` the precondition `assert`
passes (`-1 < n_actions ** n_states` holds), and the call fails later with
a `ValueError` from converting the sign character — not with the
precondition-violation (`AssertionError`) the claim requires for every
out-of-range `i`. -/
theorem C8_counterexample :
    c4M.get_policy (-1 : ℤ) = .error .valueError ∧
      PyErr.valueError ≠ PyErr.assertionError := by
  constructor
  · with_unfolding_all decide
  · decide

/-- **C8** (amended).  `get_policy(i)` fails with the precondition
`AssertionError` exactly when `i ≥ n_actions ^ n_states`; for negative `i`
the assert passes and the call fails anyway — but with a digit-conversion
`ValueError`, not a precondition violation; and for `0 ≤ i <
n_actions ^ n_states` with `1 ≤ n_states` and `2 ≤ n_actions ≤ 10` it
succeeds with a length-`n_states` policy with values in
`[0, n_actions)`.  It never silently clamps. -/
theorem C8_get_policy_errors_amended {nS nA : ℕ} (m : MDP nS nA) :
    (∀ i : ℤ, (nA : ℤ) ^ nS ≤ i → m.get_policy i = .error .assertionError) ∧
    (∀ i : ℤ, i < 0 → m.get_policy i = .error .valueError) ∧
    (1 ≤ nS → 2 ≤ nA → nA ≤ 10 → ∀ i : ℕ, i < nA ^ nS →
      ∃ p, m.get_policy (i : ℤ) = .ok p ∧ p.length = nS ∧ ∀ d ∈ p, d < nA) := by
  refine ⟨?_, ?_, ?_⟩
  · intro i hi
    unfold MDP.get_policy
    rw [if_pos (by omega)]
  · intro i hi
    have hpow : (0 : ℤ) ≤ (nA : ℤ) ^ nS := by positivity
    unfold MDP.get_policy
    rw [if_neg (by omega), if_pos hi]
  · intro hS hA2 hA10 i hi
    refine ⟨zfilled nS nA i, get_policy_ok m hA2 hA10 i hi, ?_, ?_⟩
    · exact zfilled_length hA2 hS hi
    · exact fun d hd => zfilled_mem_lt hA2 hd

/-- **C8** witness: the amended error-behaviour theorem applied to the
3-state 2-action MDP at `i = 8` (assert fires) and `i = 5` (success). -/
theorem C8_witness :
    c4M.get_policy (8 : ℤ) = .error .assertionError ∧
    (∃ p, c4M.get_policy (5 : ℤ) = .ok p ∧ p.length = 3 ∧ ∀ d ∈ p, d < 2) :=
  ⟨(C8_get_policy_errors_amended c4M).1 8 (by decide),
   (C8_get_policy_errors_amended c4M).2.2 (by decide) (by decide) (by decide)
     5 (by decide)⟩

/-- **C5**.  Guarded division: `normalize` zeroes any row whose sum is 0
(never divides by it); `get_I` produces `0` wherever the denominator
`N = T_pi(pi)` is `0`, and elsewhere its value times the denominator
recovers the numerator `T[a,s,t] * [pi[s] = a]`; the abstract reward
`compute_Rz` produces `0` wherever `Tz` is `0`, and elsewhere its value
times `Tz` recovers `belief @ (Rx * Tx) @ phi`.  All three embeddings are
total functions on ℚ: no `NaN`, no `Inf`, no raised arithmetic error
exists in any case. -/
theorem C5_guarded_division :
    (∀ (m n : ℕ) (M : Matrix (Fin m) (Fin n) ℚ) (i : Fin m),
      rowSum M i = 0 → ∀ j, normalize M i j = 0) ∧
    (∀ (nS nA : ℕ) (m : MDP nS nA) (pi : Fin nS → Fin nA) (a : Fin nA)
      (s t : Fin nS),
      (m.get_N pi s t = 0 → m.get_I pi a s t = 0) ∧
      (m.get_N pi s t ≠ 0 →
        m.get_I pi a s t * m.get_N pi s t =
          m.T a s t * (if pi s = a then 1 else 0))) ∧
    (∀ (n nZ : ℕ) (phi : Matrix (Fin n) (Fin nZ) ℚ)
      (belief : Matrix (Fin nZ) (Fin n) ℚ) (Rx Tx : Matrix (Fin n) (Fin n) ℚ)
      (Tz : Matrix (Fin nZ) (Fin nZ) ℚ) (z v : Fin nZ),
      (Tz z v = 0 → compute_Rz phi belief Rx Tx Tz z v = 0) ∧
      (Tz z v ≠ 0 →
        compute_Rz phi belief Rx Tx Tz z v * Tz z v =
          (belief * elemMul Rx Tx * phi) z v)) := by
  refine ⟨?_, ?_, ?_⟩
  · intro m n M i h j
    exact normalize_zero_row M h j
  · intro nS nA m pi a s t
    constructor
    · intro h
      unfold MDP.get_I npDivide
      rw [if_pos h]
    · intro h
      unfold MDP.get_I npDivide
      rw [if_neg h]
      exact div_mul_cancel₀ _ h
  · intro n nZ phi belief Rx Tx Tz z v
    constructor
    · intro h
      unfold compute_Rz npDivide
      rw [if_pos h]
    · intro h
      unfold compute_Rz npDivide
      rw [if_neg h]
      exact div_mul_cancel₀ _ h

/-- **C5** witness: the guarded divisions evaluated at concrete zero
denominators (`c1M` with the constant policy `0` has `N[0,1] = 0`;
a `compute_Rz` call with `Tz = 0`), plus one nonzero case. -/
theorem C5_witness :
    (∀ j, normalize (!![1, -1; 0, 0] : Matrix (Fin 2) (Fin 2) ℚ) 0 j = 0) ∧
    c1M.get_I (fun _ => 0) 0 0 1 = 0 ∧
    compute_Rz (!![(1:ℚ)]) (!![(1:ℚ)]) (!![(2:ℚ)]) (!![(0:ℚ)]) (!![(0:ℚ)])
        0 0 = 0 :=
  ⟨C5_guarded_division.1 2 2 !![1, -1; 0, 0] 0 (by with_unfolding_all decide),
   (C5_guarded_division.2.1 2 1 c1M (fun _ => 0) 0 0 1).1
      (by with_unfolding_all decide),
   (C5_guarded_division.2.2 1 1 !![(1:ℚ)] !![(1:ℚ)] !![(2:ℚ)] !![(0:ℚ)]
      !![(0:ℚ)] 0 0).1 (by with_unfolding_all decide)⟩

/-- **C6**.  The claim says the scalar bounds `R_min`/`R_max` of a freshly
constructed `AbstractMDP` are taken over its new abstract `R`.  In the code
they are not: `super().__init__` records them over the *base* rewards, and
the constructor then stores the new bounds under the distinct attribute
names `Rmin`/`Rmax` (lines 185-186), leaving `R_min`/`R_max` stale.  On
`c6Abs` the base minimum is `-1` but the new abstract `R` has minimum `0`
(the guarded division zeroes the entries where `T_abs` is zero), and the
stored `R_min` is `-1`, not `0`. -/
theorem C6_reward_bounds_stale :
    c6Abs.R_min = -1 ∧ c6Abs.R_max = 3 ∧
    stackMin c6Abs.R = 0 ∧ stackMax c6Abs.R = 3 ∧
    c6Abs.Rmin = 0 ∧ c6Abs.Rmax = 3 ∧
    c6Abs.R_min ≠ stackMin c6Abs.R := by
  refine ⟨?_, ?_, ?_, ?_, ?_, ?_, ?_⟩ <;> with_unfolding_all decide

/-- **C7** counterexample.  With an explicit 3-column `obs_fn` over a
1-state base and the default `n_obs_per_block = 2`, the stored `n_states`
is `1 * 2 = 2` (computed from the parameter on line 148, *before* line 153
reassigns `n_obs_per_block` from `obs_fn.shape`), while the derived
`T_new[a]`/`R_new[a]` are `3 × 3`. -/
theorem C7_counterexample :
    (blockExplicit b3M 2 o7).n_states = 2 ∧
    (blockExplicit b3M 2 o7).n_states ≠ Fintype.card (Fin 3) := by
  constructor
  · rfl
  · intro h
    rw [Fintype.card_fin] at h
    exact absurd h (by decide)

/-- **C7** (amended).  In both construction paths `self.n_states =
base.n_states * n_obs_per_block` uses the `n_obs_per_block` *parameter*
(default 2).  With a synthesized observation function this equals the
row/column dimension `nS * k` of every derived matrix; with an explicit
`obs_fn` of column count `nObs` the derived matrices are `nObs × nObs` and
the stored `n_states` agrees with their dimension exactly when
`nS * k = nObs` — the block factor is *not* determined from `obs_fn`. -/
theorem C7_block_dimensions_amended :
    (∀ (nS nA k : ℕ) (M : MDP nS nA) (w : Fin nS → Fin k → ℚ),
      (blockSynth M k w).n_states = nS * k ∧
      (blockSynth M k w).n_states = Fintype.card (Fin (nS * k))) ∧
    (∀ (nS nA nObs k : ℕ) (M : MDP nS nA) (O : Matrix (Fin nS) (Fin nObs) ℚ),
      (blockExplicit M k O).n_states = nS * k ∧
      ((blockExplicit M k O).n_states = Fintype.card (Fin nObs) ↔
        nS * k = nObs)) := by
  constructor
  · intro nS nA k M w
    refine ⟨rfl, ?_⟩
    rw [Fintype.card_fin]
    rfl
  · intro nS nA nObs k M O
    refine ⟨rfl, ?_⟩
    show nS * k = Fintype.card (Fin nObs) ↔ nS * k = nObs
    rw [Fintype.card_fin]

/-- **C9**.  `is_markov` can never return a boolean: its first statement
calls `self.piecewise_constant_policies(m_g, phi)` with two positional
arguments although the method declares none beyond `self`, raising
`TypeError` before any iteration; the later call
`self.get_abstract_policy(pi_g, phi)` (one declared parameter, two
arguments) and the references to the undefined module `markov`
(`matching_I`, `matching_ratios`) are unreachable and would fail as
well. -/
theorem C9_is_markov_always_fails {n nA nZ : ℕ} (m : AbstractMDP n nA nZ) :
    m.is_markov = .error .typeError ∧ ∀ b, m.is_markov ≠ .ok b := by
  have h : m.is_markov = .error .typeError := rfl
  exact ⟨h, fun b hc => by rw [h] at hc; exact Except.noConfusion hc⟩

theorem ssize_salloc {α : Type} (s : Store α) (v : α) :
    ssize (salloc s v).1 = ssize s + 1 := by
  show (List.append s [v]).length = s.length + 1
  exact List.length_append s [v]

theorem sread_salloc_lt {α : Type} (s : Store α) (v : α) {a : ℕ}
    (h : a < ssize s) : sread (salloc s v).1 a = sread s a := by
  unfold sread salloc
  exact List.get?_append h

theorem sread_salloc_self {α : Type} (s : Store α) (v : α) :
    sread (salloc s v).1 (ssize s) = some v := by
  unfold sread salloc ssize
  exact List.get?_concat_length s v

theorem sread_getD_eq {α : Type} [Inhabited α] (s : Store α) {a : ℕ}
    (h : a < ssize s) : some ((sread s a).getD default) = sread s a := by
  unfold sread ssize at *
  rw [List.get?_eq_get h]
  rfl

theorem alloc2_size {α : Type} (s : Store α) (v w : α) :
    ssize (salloc (salloc s v).1 w).1 = ssize s + 2 := by
  rw [ssize_salloc, ssize_salloc]

theorem alloc2_frame {α : Type} (s : Store α) (v w : α) {a : ℕ}
    (h : a < ssize s) : sread (salloc (salloc s v).1 w).1 a = sread s a := by
  rw [sread_salloc_lt _ _ (by rw [ssize_salloc]; omega), sread_salloc_lt _ _ h]

theorem alloc2_read1 {α : Type} (s : Store α) (v w : α) :
    sread (salloc (salloc s v).1 w).1 (ssize s) = some v := by
  rw [sread_salloc_lt _ _ (by rw [ssize_salloc]; omega), sread_salloc_self]

theorem alloc2_read2 {α : Type} (s : Store α) (v w : α) :
    sread (salloc (salloc s v).1 w).1 (ssize s + 1) = some w := by
  rw [← ssize_salloc s v, sread_salloc_self]

/-- Specification of `MDP.__init__` in the store model: the caller cells are
untouched, the two new cells sit at the old store end (hence are not
aliases of any caller cell), and they hold copies of the caller values. -/
theorem mdpInitSt_spec {α : Type} [Inhabited α] (s : Store α) (tA rA : ℕ)
    (htA : tA < ssize s) (hrA : rA < ssize s) :
    ssize (mdpInitSt s tA rA).1 = ssize s + 2 ∧
    (∀ a, a < ssize s → sread (mdpInitSt s tA rA).1 a = sread s a) ∧
    (mdpInitSt s tA rA).2.Taddr = ssize s ∧
    (mdpInitSt s tA rA).2.Raddr = ssize s + 1 ∧
    sread (mdpInitSt s tA rA).1 (ssize s) = sread s tA ∧
    sread (mdpInitSt s tA rA).1 (ssize s + 1) = sread s rA := by
  have hread1 : sread (salloc s ((sread s tA).getD default)).1 rA = sread s rA :=
    sread_salloc_lt _ _ hrA
  refine ⟨alloc2_size s _ _, fun a ha => alloc2_frame s _ _ ha, rfl, ?_, ?_, ?_⟩
  · show ssize (salloc s ((sread s tA).getD default)).1 = ssize s + 1
    exact ssize_salloc s _
  · have h := alloc2_read1 s ((sread s tA).getD default)
      ((sread (salloc s ((sread s tA).getD default)).1 rA).getD default)
    rw [sread_getD_eq s htA] at h
    exact h
  · have hb : rA < ssize (salloc s ((sread s tA).getD default)).1 := by
      rw [ssize_salloc]; omega
    have h := alloc2_read2 s ((sread s tA).getD default)
      ((sread (salloc s ((sread s tA).getD default)).1 rA).getD default)
    rw [sread_getD_eq _ hb] at h
    exact h.trans hread1

/-- Specification of `BlockMDP.__init__` / `AbstractMDP.__init__` in the
store model: caller cells untouched, all six new cells beyond the old store
end, and the private base copy holds the original base values. -/
theorem derivedInitSt_spec {α : Type} [Inhabited α] (s : Store α)
    (base : MDPRef) (fT fR : α → α → α) (htA : base.Taddr < ssize s)
    (hrA : base.Raddr < ssize s) :
    ssize (derivedInitSt s base fT fR).1 = ssize s + 6 ∧
    (∀ a, a < ssize s → sread (derivedInitSt s base fT fR).1 a = sread s a) ∧
    (derivedInitSt s base fT fR).2.base.Taddr = ssize s + 2 ∧
    (derivedInitSt s base fT fR).2.base.Raddr = ssize s + 3 ∧
    (derivedInitSt s base fT fR).2.self.Taddr = ssize s + 4 ∧
    (derivedInitSt s base fT fR).2.self.Raddr = ssize s + 5 ∧
    sread (derivedInitSt s base fT fR).1 (ssize s + 2) = sread s base.Taddr ∧
    sread (derivedInitSt s base fT fR).1 (ssize s + 3) = sread s base.Raddr := by
  obtain ⟨hs1, hframe1, -, -, -, -⟩ :=
    mdpInitSt_spec s base.Taddr base.Raddr htA hrA
  have hs1' : ssize (dStage1 s base) = ssize s + 2 := hs1
  have hframe1' : ∀ a, a < ssize s → sread (dStage1 s base) a = sread s a :=
    hframe1
  have hs2 : ssize (dStage2 s base) = ssize s + 3 := by
    unfold dStage2
    rw [ssize_salloc, hs1']
  have hs3 : ssize (dStage3 s base) = ssize s + 4 := by
    unfold dStage3
    rw [ssize_salloc, hs2]
  have hs4 : ssize (dStage4 s base fT) = ssize s + 5 := by
    unfold dStage4
    rw [ssize_salloc, hs3]
  have hs5 : ssize (dStage5 s base fT fR) = ssize s + 6 := by
    unfold dStage5
    rw [ssize_salloc, hs4]
  have hf2 : ∀ a, a < ssize s + 2 → sread (dStage2 s base) a =
      sread (dStage1 s base) a := by
    intro a ha
    unfold dStage2
    exact sread_salloc_lt _ _ (by rw [hs1']; exact ha)
  have hf3 : ∀ a, a < ssize s + 3 → sread (dStage3 s base) a =
      sread (dStage2 s base) a := by
    intro a ha
    unfold dStage3
    exact sread_salloc_lt _ _ (by rw [hs2]; exact ha)
  have hf4 : ∀ a, a < ssize s + 4 → sread (dStage4 s base fT) a =
      sread (dStage3 s base) a := by
    intro a ha
    unfold dStage4
    exact sread_salloc_lt _ _ (by rw [hs3]; exact ha)
  have hf5 : ∀ a, a < ssize s + 5 → sread (dStage5 s base fT fR) a =
      sread (dStage4 s base fT) a := by
    intro a ha
    unfold dStage5
    exact sread_salloc_lt _ _ (by rw [hs4]; exact ha)
  have hcopyT : sread (dStage2 s base) (ssize s + 2) = sread s base.Taddr := by
    unfold dStage2
    rw [← hs1', sread_salloc_self,
      sread_getD_eq _ (by rw [hs1']; omega)]
    exact hframe1' base.Taddr htA
  have hcopyR : sread (dStage3 s base) (ssize s + 3) = sread s base.Raddr := by
    unfold dStage3
    rw [← hs2, sread_salloc_self,
      sread_getD_eq _ (by rw [hs2]; omega)]
    rw [hf2 base.Raddr (by omega)]
    exact hframe1' base.Raddr hrA
  refine ⟨hs5, ?_, ?_, ?_, ?_, ?_, ?_, ?_⟩
  · intro a ha
    show sread (dStage5 s base fT fR) a = sread s a
    rw [hf5 a (by omega), hf4 a (by omega), hf3 a (by omega), hf2 a (by omega)]
    exact hframe1' a ha
  · show ssize (dStage1 s base) = ssize s + 2
    exact hs1'
  · show ssize (dStage2 s base) = ssize s + 3
    exact hs2
  · show ssize (dStage3 s base) = ssize s + 4
    exact hs3
  · show ssize (dStage4 s base fT) = ssize s + 5
    exact hs4
  · show sread (dStage5 s base fT fR) (ssize s + 2) = sread s base.Taddr
    rw [hf5 _ (by omega), hf4 _ (by omega), hf3 _ (by omega)]
    exact hcopyT
  · show sread (dStage5 s base fT fR) (ssize s + 3) = sread s base.Raddr
    rw [hf5 _ (by omega), hf4 _ (by omega)]
    exact hcopyR

/-- **C10**.  Ownership / frame property, over the explicit store model
(`Store`, `salloc`, `sread`): `MDP.__init__` deep-copies the caller arrays
into fresh cells beyond the caller store, leaving every caller cell
unchanged and equal in value; `BlockMDP.__init__` and `AbstractMDP.__init__`
(both modelled by `derivedInitSt`) additionally deep-copy the base MDP into
fresh cells whose values equal the originals, and compute their new `T`/`R`
into further fresh cells.  No constructor ever writes to an existing cell
(every embedded operation is an `salloc`), so the caller originals are never
aliased or mutated, and all subsequent operations of the embedding are pure
functions of values and touch no store at all. -/
theorem C10_ownership :
    (∀ (α : Type) (inst : Inhabited α) (s : Store α) (tA rA : ℕ),
      tA < ssize s → rA < ssize s →
      ssize (mdpInitSt s tA rA).1 = ssize s + 2 ∧
      (∀ a, a < ssize s → sread (mdpInitSt s tA rA).1 a = sread s a) ∧
      (mdpInitSt s tA rA).2.Taddr = ssize s ∧
      (mdpInitSt s tA rA).2.Raddr = ssize s + 1 ∧
      sread (mdpInitSt s tA rA).1 (ssize s) = sread s tA ∧
      sread (mdpInitSt s tA rA).1 (ssize s + 1) = sread s rA) ∧
    (∀ (α : Type) (inst : Inhabited α) (s : Store α) (base : MDPRef)
      (fT fR : α → α → α),
      base.Taddr < ssize s → base.Raddr < ssize s →
      ssize (derivedInitSt s base fT fR).1 = ssize s + 6 ∧
      (∀ a, a < ssize s → sread (derivedInitSt s base fT fR).1 a = sread s a) ∧
      (derivedInitSt s base fT fR).2.base.Taddr = ssize s + 2 ∧
      (derivedInitSt s base fT fR).2.base.Raddr = ssize s + 3 ∧
      (derivedInitSt s base fT fR).2.self.Taddr = ssize s + 4 ∧
      (derivedInitSt s base fT fR).2.self.Raddr = ssize s + 5 ∧
      sread (derivedInitSt s base fT fR).1 (ssize s + 2) = sread s base.Taddr ∧
      sread (derivedInitSt s base fT fR).1 (ssize s + 3) = sread s base.Raddr) :=
  ⟨fun α inst s tA rA htA hrA => mdpInitSt_spec s tA rA htA hrA,
   fun α inst s base fT fR htA hrA => derivedInitSt_spec s base fT fR htA hrA⟩

/-- **C10** witness: the ownership theorem applied to a concrete two-cell
store holding the values 10 and 20; the caller cells read back unchanged. -/
theorem C10_witness :
    ((0 < ssize ([10, 20] : Store ℕ)) ∧ (1 < ssize ([10, 20] : Store ℕ))) ∧
    sread (mdpInitSt ([10, 20] : Store ℕ) 0 1).1 (ssize ([10, 20] : Store ℕ)) =
      sread ([10, 20] : Store ℕ) 0 ∧
    sread (derivedInitSt ([10, 20] : Store ℕ) ⟨0, 1⟩ (fun a _ => a)
        (fun _ b => b)).1 (ssize ([10, 20] : Store ℕ) + 2) =
      sread ([10, 20] : Store ℕ) 0 :=
  ⟨⟨by decide, by decide⟩,
   (C10_ownership.1 ℕ inferInstance [10, 20] 0 1 (by decide) (by decide)).2.2.2.2.1,
   (C10_ownership.2 ℕ inferInstance [10, 20] ⟨0, 1⟩ (fun a _ => a) (fun _ b => b)
      (by decide) (by decide)).2.2.2.2.2.2.1⟩

end MdpGen
